import Mathlib

/-!
git-get: the target-string resolver (`giturl.Parse`)

A shallow embedding of `src/gitget/giturl/url.go`.

* Go strings are modelled as `List Char` (`Str`).  Every character the code
  inspects (`/`, `.`, `@`, `:`, digits, newline) is ASCII, and UTF-8 is
  self-synchronising, so byte offsets of those characters in the Go string and
  positions in the character list delimit the same substrings.
* `path.*` and `filepath.*` are the Go standard library functions; they are
  modelled after their Go implementation for a `/`-separated platform, where
  `filepath.Clean/Split/Ext/Join/Base` agree with their `path` counterparts and
  `filepath.VolumeName` is always empty.
* The three injected package variables `osHostname`, `userCurrent`, `osStat`
  are the fields of `Env`.
* `findLocalGit` and `findRemoteGitR` are recursive without a structural
  argument, so they carry a fuel counter; `none` means the fuel ran out.
-/

namespace GitGet

/-- A Go string. -/
abbrev Str := List Char

/-! ## Errors, injected lookups, the descriptor -/

/-- Go `error` values that can flow through `Parse`.  `stacktrace.TraceN` only
wraps a non-nil error with call-site information and keeps it visible to
`errors.Is`, so it is modelled as the identity. -/
inductive GoError where
  | ErrInvalidTarget
  | ErrNotExist
  | ErrPermission
  | other (code : Nat)
  deriving DecidableEq, Repr

/-- The part of `os/user.User` the code can see. -/
structure User where
  Username : Str
  Name : Str
  deriving DecidableEq, Repr

/-- The descriptor `giturl.URL`. -/
structure URL where
  Remote : Str
  Host : Str
  Owner : Str
  Name : Str
  Commit : Str
  Path : Str
  deriving DecidableEq, Repr

/-- The injected package-level function variables. -/
structure Env where
  osHostname : Except GoError Str
  userCurrent : Except GoError User
  osStat : Str → Except GoError Unit

/-! ## Go standard library: `strings`, `path`, `path/filepath` -/

/-- Go `strings.LastIndexByte(s, c)`; `none` stands for `-1`. -/
def lastIndexByte : Str → Char → Option Nat
  | [], _ => none
  | x :: xs, c =>
    match lastIndexByte xs c with
    | some i => some (i + 1)
    | none => if x = c then some 0 else none

/-- Go `strings.HasPrefix`. -/
def hasPrefix (s p : Str) : Bool := p.isPrefixOf s

/-- Go `strings.TrimSuffix(s, suffix)`. -/
def trimSuffix (s suffix : Str) : Str :=
  if suffix.isSuffixOf s then s.take (s.length - suffix.length) else s

/-- Loop of Go `path.Ext`, scanning the reversed path: stop at a slash with
the empty result, stop at the first dot with the suffix that starts there. -/
def extLoop : Str → Str → Str
  | [], _ => []
  | c :: rest, acc =>
    if c = '/' then [] else if c = '.' then c :: acc else extLoop rest (c :: acc)

/-- Go `path.Ext`: the suffix beginning at the final dot in the final
slash-separated element of the path; empty if there is no dot. -/
def pathExt (p : Str) : Str := extLoop p.reverse []

/-- Go `path.Split`: split immediately after the final slash. -/
def pathSplit (p : Str) : Str × Str :=
  match lastIndexByte p '/' with
  | some i => (p.take (i + 1), p.drop (i + 1))
  | none => ([], p)

/-- Inner loop of the `..` case of Go `path.Clean`
(`for out.w > dotdot && out.index(out.w) != '/' { out.w-- }`), started at the
write index `w` that has already been decremented once. -/
def cleanBacktrack (out : Str) (dotdot : Nat) : Nat → Nat
  | 0 => 0
  | w + 1 =>
    if dotdot < w + 1 ∧ out.getD (w + 1) '/' ≠ '/' then cleanBacktrack out dotdot w
    else w + 1

/-- One path element processed by the main loop of Go `path.Clean`; the state
is the output buffer and the index `dotdot` below which `..` must not
backtrack. -/
def cleanElem (rooted : Bool) (st : Str × Nat) (e : Str) : Str × Nat :=
  if e = [] then st
  else if e = ['.'] then st
  else if e = ['.', '.'] then
    if st.2 < st.1.length then
      (st.1.take (cleanBacktrack st.1 st.2 (st.1.length - 1)), st.2)
    else if rooted then st
    else
      let out := (if 0 < st.1.length then st.1 ++ ['/'] else st.1) ++ ['.', '.']
      (out, out.length)
  else
    let out :=
      if (rooted && st.1.length != 1) || (!rooted && st.1.length != 0) then st.1 ++ ['/']
      else st.1
    (out ++ e, st.2)

/-- Go `path.Clean`.  The byte loop consumes either one slash or one whole
path element per iteration, so it is a fold of `cleanElem` over the
slash-separated elements. -/
def pathClean (p : Str) : Str :=
  if p = [] then ['.']
  else
    let rooted : Bool := p.head? = some '/'
    let init : Str × Nat := if rooted then (['/'], 1) else ([], 0)
    let out := ((p.splitOn '/').foldl (cleanElem rooted) init).1
    if out = [] then ['.'] else out

/-- Go `path.Join`: drop leading empty elements, join the rest with slashes
and clean; the empty string if every element is empty. -/
def pathJoin : List Str → Str
  | [] => []
  | e :: es => if e = [] then pathJoin es else pathClean (['/'].intercalate (e :: es))

/-- Loop of Go `path.Base` that strips trailing slashes. -/
def stripTrailingSlashes (p : Str) : Str := (p.reverse.dropWhile (· = '/')).reverse

/-- Go `path.Base`. -/
def pathBase (p : Str) : Str :=
  if p = [] then ['.']
  else
    let q := stripTrailingSlashes p
    let r := match lastIndexByte q '/' with
      | some i => q.drop (i + 1)
      | none => q
    if r = [] then ['/'] else r

/-- Go `path.Dir`. -/
def pathDir (p : Str) : Str := pathClean (pathSplit p).1

/-- The value of `filepath.VolumeName` on a `/`-separated platform. -/
def filepathVolumeName (_ : Str) : Str := []

/-! ## Regular expressions

Go's `regexp` gives the match a backtracking engine would find first
(leftmost-first).  The two patterns are written with continuation-passing
combinators that try alternatives in that priority order: a greedy repetition
tries the longest run first, an optional group tries its body first. -/

/-- A literal. -/
def reLit {α : Type} (l : Str) (k : Str → Option α) (s : Str) : Option α :=
  if l.isPrefixOf s then k (s.drop l.length) else none

/-- Greedy `c*` for a character class `c`. -/
def reStar {α : Type} (p : Char → Bool) (k : Str → Option α) : Str → Option α
  | [] => k []
  | c :: cs => if p c then (reStar p k cs).orElse (fun _ => k (c :: cs)) else k (c :: cs)

/-- Greedy `c+` for a character class `c`. -/
def rePlus {α : Type} (p : Char → Bool) (k : Str → Option α) : Str → Option α
  | [] => none
  | c :: cs => if p c then reStar p k cs else none

/-- Greedy optional group `(?:r)?`. -/
def reOpt {α : Type} (r : (Str → Option α) → Str → Option α) (k : Str → Option α)
    (s : Str) : Option α :=
  (r k s).orElse (fun _ => k s)

/-- End of text `$` (no multi-line flag). -/
def reEnd {α : Type} (k : Str → Option α) (s : Str) : Option α :=
  if s = [] then k s else none

/-- The class of `.`: any character but newline. -/
def reDot (c : Char) : Bool := c != '\n'

/-- The text between two positions of `s`, each given by the input that
remains at it. -/
def between (s fromRest toRest : Str) : Str :=
  (s.drop (s.length - fromRest.length)).take (fromRest.length - toRest.length)

/-- Regexp `httpRe = ^(https?://(?:([^:/]+)(?::[0-9]+)?))(.*)$`;
`FindStringSubmatch` groups 1, 2, 3. -/
def httpRe (s : Str) : Option (Str × Str × Str) :=
  (reLit "http".toList <| reOpt (reLit "s".toList) <| reLit "://".toList <| fun hostStart =>
    rePlus (fun c => c != ':' && c != '/') (fun hostEnd =>
      reOpt (fun k => reLit ":".toList (rePlus Char.isDigit k)) (fun lastStart =>
        reStar reDot (reEnd (fun _ =>
          some (between s s lastStart, between s hostStart hostEnd, lastStart))) lastStart)
        hostEnd) hostStart) s

/-- Regexp `sshRe = ^((?:[^@]+@)?([^:]+):)(.*)$`;
`FindStringSubmatch` groups 1, 2, 3. -/
def sshRe (s : Str) : Option (Str × Str × Str) :=
  (reOpt (fun k => rePlus (fun c => c != '@') (reLit "@".toList k)) <| fun hostStart =>
    rePlus (fun c => c != ':') (fun hostEnd =>
      reLit ":".toList (fun lastStart =>
        reStar reDot (reEnd (fun _ =>
          some (between s s lastStart, between s hostStart hostEnd, lastStart))) lastStart)
        hostEnd) hostStart) s

/-! ## `giturl` -/

/-- The variable `pathSeparator` on a `/`-separated platform. -/
def pathSeparator : Str := ['/']

/-- Go `isLocal`. -/
def isLocal (target : Str) : Bool :=
  if hasPrefix target pathSeparator then true
  else if hasPrefix target ['.'] then true
  else if filepathVolumeName target ≠ [] then true
  else false

/-- Go `parseCommit`. -/
def parseCommit (target : Str) : Str × Str :=
  match lastIndexByte target '@' with
  | some i => (target.take i, target.drop (i + 1))
  | none => (target, "HEAD".toList)

/-- Go `findLocalGit`, with the probe `osStat` as a parameter. -/
def findLocalGit (osStat : Str → Except GoError Unit) :
    Nat → Str → Option (Except GoError (Str × Str))
  | 0, _ => none
  | fuel + 1, target =>
    let target := pathClean target
    if target = [] then some (.error .ErrInvalidTarget)
    else if pathExt target = ".git".toList then some (.ok (target, ['/']))
    else
      match osStat (pathJoin [target, ".git".toList]) with
      | .ok _ => some (.ok (target, ['/']))
      | .error _ =>
        match findLocalGit osStat fuel (pathSplit target).1 with
        | none => none
        | some (.error err) => some (.error err)
        | some (.ok (remote, dir)) => some (.ok (remote, pathJoin [dir, (pathSplit target).2]))

/-- Go `parseName`. -/
def parseName (target : Str) : Str :=
  let s := pathBase target
  trimSuffix s (pathExt s)

/-- Go `findRemoteGitR`. -/
def findRemoteGitR : Nat → Str → Option (Except GoError (Str × Str))
  | 0, _ => none
  | fuel + 1, target =>
    let target := pathClean target
    if target = [] ∨ target = ['.'] ∨ target = ['/'] then some (.error .ErrInvalidTarget)
    else if pathExt target = ".git".toList then some (.ok (target, ['/']))
    else
      match findRemoteGitR fuel (pathSplit target).1 with
      | none => none
      | some (.error err) => some (.error err)
      | some (.ok (remote, dir)) => some (.ok (remote, pathJoin [dir, (pathSplit target).2]))

/-- Go `findRemoteGit`. -/
def findRemoteGit (fuel : Nat) (target : Str) : Option (Except GoError (Str × Str)) :=
  match findRemoteGitR fuel target with
  | none => none
  | some (.error err) =>
    if err = .ErrInvalidTarget then some (.ok (target, ['/'])) else some (.error err)
  | some (.ok (remote, dir)) => some (.ok (remote, dir))

/-- Go `parseOwnerName`. -/
def parseOwnerName (remote : Str) : Str × Str :=
  (pathBase (pathDir remote), trimSuffix (pathBase remote) (pathExt remote))

/-- The two remote branches of `Parse` share this body, run on the groups of
the pattern that matched. -/
def parseRemote (fuel : Nat) (m : Str × Str × Str) : Option (Except GoError URL) :=
  let left := m.1
  let host := m.2.1
  let last := m.2.2
  let lc := parseCommit last
  match findRemoteGit fuel lc.1 with
  | none => none
  | some (.error err) => some (.error err)
  | some (.ok (remote, path)) =>
    let ownerName := parseOwnerName remote
    some (.ok { Remote := left ++ remote, Host := host, Owner := ownerName.1, Name := ownerName.2,
                Commit := lc.2, Path := path })

/-- Go `Parse`. -/
def Parse (env : Env) (fuel : Nat) (target : Str) : Option (Except GoError URL) :=
  if isLocal target then
    let lc := parseCommit target
    match findLocalGit env.osStat fuel lc.1 with
    | none => none
    | some (.error err) => some (.error err)
    | some (.ok (remote, path)) =>
      match env.osHostname with
      | .error err => some (.error err)
      | .ok host =>
        match env.userCurrent with
        | .error err => some (.error err)
        | .ok owner =>
          some (.ok { Remote := remote, Host := host, Owner := owner.Name,
                      Name := parseName remote, Commit := lc.2, Path := path })
  else
    match httpRe target with
    | some m => parseRemote fuel m
    | none =>
      match sshRe target with
      | some m => parseRemote fuel m
      | none => some (.error .ErrInvalidTarget)

/-! ## The segment view of `path.Clean`, used in the proofs -/

/-- A leading run of `m` elements `..`. -/
def dots (m : Nat) : List Str := List.replicate m ['.', '.']

/-- The path spelled by a list of elements. -/
def render (rooted : Bool) (st : List Str) : Str :=
  (if rooted then ['/'] else []) ++ ['/'].intercalate st

/-- A path element that `path.Clean` copies: not empty, not `.`, not `..`,
without a slash. -/
def Good (g : Str) : Prop := g ≠ [] ∧ g ≠ ['.'] ∧ g ≠ ['.', '.'] ∧ '/' ∉ g

/-- The effect of one path element on the cleaned path, seen as a number of
leading `..` elements followed by copied elements. -/
def stackElem (rooted : Bool) (s : Nat × List Str) (e : Str) : Nat × List Str :=
  if e = [] ∨ e = ['.'] then s
  else if e = ['.', '.'] then
    if s.2 ≠ [] then (s.1, s.2.dropLast)
    else if rooted then s
    else (s.1 + 1, s.2)
  else (s.1, s.2 ++ [e])

/-- Whether a path starts with a slash. -/
def isRooted (p : Str) : Bool := p.head? = some '/'

/-- The elements of the cleaned path. -/
def cleanStack (p : Str) : Nat × List Str :=
  (p.splitOn '/').foldl (stackElem (isRooted p)) (0, [])

/-- The cleaned path spelled from its elements. -/
def cleanOut (rooted : Bool) (s : Nat × List Str) : Str :=
  if render rooted (dots s.1 ++ s.2) = [] then ['.'] else render rooted (dots s.1 ++ s.2)

/-- The element lists `path.Clean` can produce: a run of `..` (none under a
root) followed by copied elements. -/
def Norm (rooted : Bool) (st : List Str) : Prop :=
  ∃ (m : Nat) (goods : List Str), st = dots m ++ goods ∧ (rooted = true → m = 0) ∧
    ∀ g ∈ goods, Good g

/-- The cleaned path spelled from a list of elements. -/
def cleanOutL (rooted : Bool) (st : List Str) : Str :=
  if render rooted st = [] then ['.'] else render rooted st

/-- The elements of the cleaned form of `p`, as one list. -/
def stackOf (p : Str) : List Str := dots (cleanStack p).1 ++ (cleanStack p).2

/-- The boundary search of `findRemoteGitR` on the reversed element list of a
cleaned path: the elements up to the last one with extension `.git`, and the
elements after it. -/
def splitAtGit : List Str → Option (List Str × List Str)
  | [] => none
  | g :: rest =>
    if pathExt g = ".git".toList then some (g :: rest, [])
    else
      match splitAtGit rest with
      | none => none
      | some (r, d) => some (r, d ++ [g])

/-- The result of `findRemoteGitR` on a cleaned path with elements `st`. -/
def remoteSpec (rooted : Bool) (st : List Str) : Except GoError (Str × Str) :=
  match splitAtGit st.reverse with
  | none => .error .ErrInvalidTarget
  | some (r, d) => .ok (render rooted r.reverse, render true d)

/-- The text `/s1/.../sk` of a list of sub-path segments. -/
def subPath (ss : List Str) : Str := (ss.map (fun s => '/' :: s)).flatten

/-- The result of `findRemoteGit` on `t`: the boundary found by
`findRemoteGitR`, or the whole of `t` with sub-path `/` when there is none. -/
def remoteResult (t : Str) : Str × Str :=
  match remoteSpec (isRooted t) (stackOf t) with
  | .error _ => (t, ['/'])
  | .ok v => v

/-- The text after the first `@` of a string. -/
def afterAt (s : Str) : Str := (s.dropWhile (· ≠ '@')).drop 1

/-- The stubs of `TestUrl`: host `git.example`, user `gecos`, and a probe
that finds `.git` exactly inside directories named `repo`. -/
def testEnv : Env :=
  { osHostname := .ok "git.example".toList
    userCurrent := .ok { Username := "gecos".toList, Name := "gecos".toList }
    osStat := fun name =>
      if pathBase (pathDir (pathClean name)) = "repo".toList then .ok ()
      else .error .ErrNotExist }

/-- An environment whose probe never finds anything. -/
def emptyEnv : Env :=
  { osHostname := .ok "git.example".toList
    userCurrent := .ok { Username := "gecos".toList, Name := "gecos".toList }
    osStat := fun _ => .error .ErrNotExist }

/-- A path segment as the claims describe it: not empty, not `.` or `..`,
without slash, `@` or newline. -/
abbrev IsSegment (s : Str) : Prop :=
  s ≠ [] ∧ s ≠ ['.'] ∧ s ≠ ['.', '.'] ∧ '/' ∉ s ∧ '@' ∉ s ∧ '\n' ∉ s

/-- A sub-path segment: a segment that does not end in `.git`. -/
abbrev IsSubSegment (s : Str) : Prop := IsSegment s ∧ ¬ (".git".toList <:+ s)

/-- The text of an optional port: nothing, or `:` and the digits. -/
def portText : Option Str → Str
  | none => []
  | some p => ':' :: p

/-- The text of an optional commit suffix: nothing, or `@` and the commit. -/
def commitText : Option Str → Str
  | none => []
  | some c => '@' :: c

/-- A segment of a local path as the claims describe it: not empty, not `.`
or `..`, without slash or `@`. -/
abbrev IsLocalSegment (s : Str) : Prop :=
  s ≠ [] ∧ s ≠ ['.'] ∧ s ≠ ['.', '.'] ∧ '/' ∉ s ∧ '@' ∉ s

/-- A sub-path segment of a local path: a segment that does not end in `.git`. -/
abbrev IsLocalSubSegment (s : Str) : Prop := IsLocalSegment s ∧ ¬ (".git".toList <:+ s)

/-- Lines 114-125 of `runE` in `gitget.go`: the destination directory computed
from the descriptor and the command-line arguments (`args[0]` is the target,
`args[1]` the optional `<dir>`). -/
def destinationDir (url : URL) (args : List Str) : Str :=
  let target : Str := if args.length ≥ 2 then args.getD 1 [] else []
  let target : Str :=
    if target = [] then
      if url.Path = "/".toList then url.Name else pathBase url.Path
    else target
  pathClean (pathJoin [".".toList, target])

/-- An environment whose probe is denied access to `/srv/repo/sub/.git` and
finds `/srv/repo/.git`. -/
def deniedEnv : Env :=
  { osHostname := .ok "git.example".toList
    userCurrent := .ok { Username := "gecos".toList, Name := "gecos".toList }
    osStat := fun name =>
      if name = "/srv/repo/sub/.git".toList then .error .ErrPermission
      else if name = "/srv/repo/.git".toList then .ok ()
      else .error .ErrNotExist }

/-- An environment whose hostname lookup fails. -/
def noHostEnv : Env :=
  { osHostname := .error (.other 1)
    userCurrent := .ok { Username := "gecos".toList, Name := "gecos".toList }
    osStat := fun _ => .error .ErrNotExist }

/-- A probe that reports every failure of `osStat` as not-found. -/
def notFoundProbe (osStat : Str → Except GoError Unit) : Str → Except GoError Unit :=
  fun p =>
    match osStat p with
    | .ok u => .ok u
    | .error _ => .error .ErrNotExist

/-- The environment `env` with every probe failure reported as not-found. -/
def withNotFoundProbe (env : Env) : Env :=
  { osHostname := env.osHostname
    userCurrent := env.userCurrent
    osStat := notFoundProbe env.osStat }

/-! # Lemmas and theorems -/

/-! ## Lemmas: `strings.LastIndexByte` -/

theorem lastIndexByte_eq_none {s : Str} {c : Char} : lastIndexByte s c = none ↔ c ∉ s := by
  induction s with
  | nil => simp [lastIndexByte]
  | cons x xs ih =>
    simp only [lastIndexByte]
    cases h : lastIndexByte xs c with
    | none =>
      have := ih.mp h
      by_cases hx : x = c
      · simp [hx]
      · simp [hx, this, Ne.symm hx]
    | some i =>
      have : c ∈ xs := by
        by_contra hc
        rw [ih.mpr hc] at h
        cases h
      simp [this]

theorem lastIndexByte_append {a b : Str} {c : Char} (hb : c ∉ b) :
    lastIndexByte (a ++ c :: b) c = some a.length := by
  induction a with
  | nil => simp [lastIndexByte, lastIndexByte_eq_none.mpr hb]
  | cons x xs ih => simp [lastIndexByte, ih]

theorem lastIndexByte_eq_some {s : Str} {c : Char} {i : Nat} (h : lastIndexByte s c = some i) :
    s = s.take i ++ c :: s.drop (i + 1) ∧ c ∉ s.drop (i + 1) := by
  induction s generalizing i with
  | nil => simp [lastIndexByte] at h
  | cons x xs ih =>
    simp only [lastIndexByte] at h
    cases h2 : lastIndexByte xs c with
    | none =>
      rw [h2] at h
      by_cases hx : x = c
      · simp [hx] at h
        subst h
        simp [hx, lastIndexByte_eq_none.mp h2]
      · simp [hx] at h
    | some j =>
      rw [h2] at h
      simp at h
      subst h
      have := ih h2
      simp only [List.take_succ_cons, List.drop_succ_cons, List.cons_append]
      exact ⟨by rw [← this.1], this.2⟩

/-! ## Lemmas: the regular-expression combinators -/

theorem reLit_append {α : Type} (l s : Str) (k : Str → Option α) :
    reLit l k (l ++ s) = k s := by
  simp [reLit, List.isPrefixOf_iff_prefix]

theorem reLit_eq_some {α : Type} {l s : Str} {k : Str → Option α} {v : α}
    (h : reLit l k s = some v) : ∃ r, s = l ++ r ∧ k r = some v := by
  unfold reLit at h
  split at h
  · rename_i hp
    rw [List.isPrefixOf_iff_prefix] at hp
    obtain ⟨r, rfl⟩ := hp
    exact ⟨r, rfl, by simpa using h⟩
  · cases h

theorem reStar_greedy {α : Type} (p : Char → Bool) (k : Str → Option α) (run rest : Str)
    (v : α) (hrun : ∀ c ∈ run, p c = true) (hrest : ∀ c ∈ rest.head?, p c = false)
    (hk : k rest = some v) : reStar p k (run ++ rest) = some v := by
  induction run with
  | nil =>
    cases rest with
    | nil => simpa [reStar] using hk
    | cons d ds =>
      have : p d = false := hrest d (by simp)
      simp [reStar, this, hk]
  | cons c cs ih =>
    have hc : p c = true := hrun c (by simp)
    have := ih (fun d hd => hrun d (by simp [hd]))
    simp [reStar, hc, this]

theorem rePlus_greedy {α : Type} (p : Char → Bool) (k : Str → Option α) (run rest : Str)
    (v : α) (hne : run ≠ []) (hrun : ∀ c ∈ run, p c = true)
    (hrest : ∀ c ∈ rest.head?, p c = false)
    (hk : k rest = some v) : rePlus p k (run ++ rest) = some v := by
  cases run with
  | nil => exact absurd rfl hne
  | cons c cs =>
    have hc : p c = true := hrun c (by simp)
    simp only [List.cons_append, rePlus, hc, if_true]
    exact reStar_greedy p k cs rest v (fun d hd => hrun d (by simp [hd])) hrest hk

theorem reStar_eq_some {α : Type} {p : Char → Bool} {k : Str → Option α} {s : Str} {v : α}
    (h : reStar p k s = some v) :
    ∃ run r, s = run ++ r ∧ (∀ c ∈ run, p c = true) ∧ k r = some v := by
  induction s with
  | nil => exact ⟨[], [], rfl, by simp, by simpa [reStar] using h⟩
  | cons c cs ih =>
    simp only [reStar] at h
    by_cases hc : p c = true
    · simp only [hc, if_true] at h
      cases h2 : reStar p k cs with
      | none =>
        rw [h2] at h
        exact ⟨[], c :: cs, rfl, by simp, by simpa using h⟩
      | some w =>
        rw [h2] at h
        have hw : w = v := by simpa using h
        subst hw
        obtain ⟨run, r, hs, hrun, hk⟩ := ih h2
        refine ⟨c :: run, r, by simp [hs], ?_, hk⟩
        intro d hd
        rcases List.mem_cons.mp hd with rfl | hd
        · exact hc
        · exact hrun d hd
    · simp only [hc] at h
      exact ⟨[], c :: cs, rfl, by simp, by simpa using h⟩

theorem rePlus_eq_some {α : Type} {p : Char → Bool} {k : Str → Option α} {s : Str} {v : α}
    (h : rePlus p k s = some v) :
    ∃ run r, s = run ++ r ∧ run ≠ [] ∧ (∀ c ∈ run, p c = true) ∧ k r = some v := by
  cases s with
  | nil => simp [rePlus] at h
  | cons c cs =>
    simp only [rePlus] at h
    by_cases hc : p c = true
    · simp only [hc, if_true] at h
      obtain ⟨run, r, hs, hrun, hk⟩ := reStar_eq_some h
      refine ⟨c :: run, r, by simp [hs], by simp, ?_, hk⟩
      intro d hd
      rcases List.mem_cons.mp hd with rfl | hd
      · exact hc
      · exact hrun d hd
    · simp [hc] at h

theorem reOpt_eq_some {α : Type} {r : (Str → Option α) → Str → Option α}
    {k : Str → Option α} {s : Str} {v : α} (h : reOpt r k s = some v) :
    r k s = some v ∨ k s = some v := by
  unfold reOpt at h
  cases h2 : r k s with
  | none => rw [h2] at h; right; simpa using h
  | some w => rw [h2] at h; left; simpa using h

theorem reEnd_eq_some {α : Type} {k : Str → Option α} {s : Str} {v : α}
    (h : reEnd k s = some v) : s = [] ∧ k [] = some v := by
  unfold reEnd at h
  split at h
  · rename_i hs; subst hs; exact ⟨rfl, h⟩
  · cases h

theorem between_self (a r : Str) : between (a ++ r) (a ++ r) r = a := by
  simp [between]

theorem between_mid (a h e : Str) : between (a ++ (h ++ e)) (h ++ e) e = h := by
  simp [between]

/-- The tail `(.*)$` of both patterns: it consumes the whole remainder, which
therefore holds no newline. -/
theorem reTail_eq_some {α : Type} {f : Str → α} {s : Str} {v : α}
    (h : reStar reDot (reEnd (fun _ => some (f s))) s = some v) :
    v = f s ∧ '\n' ∉ s := by
  obtain ⟨run, r, hs, hrun, hk⟩ := reStar_eq_some h
  obtain ⟨hr, hv⟩ := reEnd_eq_some hk
  subst hr
  simp at hs
  subst hs
  refine ⟨by simpa using hv.symm, ?_⟩
  intro hmem
  have := hrun _ hmem
  simp [reDot] at this

theorem reTail_of_no_newline {α : Type} (f : Str → α) (s : Str) (h : '\n' ∉ s) :
    reStar reDot (reEnd (fun _ => some (f s))) s = some (f s) := by
  have := reStar_greedy reDot (reEnd (fun _ => some (f s))) s [] (f s)
    (fun c hc => by
      simp only [reDot, bne_iff_ne, ne_eq]
      rintro rfl
      exact h hc)
    (by simp) (by simp [reEnd])
  simpa using this

/-- What a match of `httpRe` looks like. -/
theorem httpRe_eq_some {s : Str} {m : Str × Str × Str} (h : httpRe s = some m) :
    ∃ scheme host port : Str,
      (scheme = "http".toList ∨ scheme = "https".toList) ∧ host ≠ [] ∧
      (∀ c ∈ host, c ≠ ':' ∧ c ≠ '/') ∧
      (port = [] ∨ ∃ ds : Str, ds ≠ [] ∧ (∀ c ∈ ds, c.isDigit = true) ∧ port = ':' :: ds) ∧
      '\n' ∉ m.2.2 ∧ m.1 = scheme ++ "://".toList ++ host ++ port ∧ m.2.1 = host ∧
      s = m.1 ++ m.2.2 := by
  unfold httpRe at h
  obtain ⟨r1, hs1, h⟩ := reLit_eq_some h
  have key : ∀ (scheme r2 : Str), s = scheme ++ r2 →
      (scheme = "http".toList ∨ scheme = "https".toList) →
      reLit "://".toList (fun hostStart =>
        rePlus (fun c => c != ':' && c != '/') (fun hostEnd =>
          reOpt (fun k => reLit ":".toList (rePlus Char.isDigit k)) (fun lastStart =>
            reStar reDot (reEnd (fun _ =>
              some (between s s lastStart, between s hostStart hostEnd, lastStart))) lastStart)
            hostEnd) hostStart) r2 = some m →
      ∃ scheme host port : Str,
        (scheme = "http".toList ∨ scheme = "https".toList) ∧ host ≠ [] ∧
        (∀ c ∈ host, c ≠ ':' ∧ c ≠ '/') ∧
        (port = [] ∨ ∃ ds : Str, ds ≠ [] ∧ (∀ c ∈ ds, c.isDigit = true) ∧ port = ':' :: ds) ∧
        '\n' ∉ m.2.2 ∧ m.1 = scheme ++ "://".toList ++ host ++ port ∧ m.2.1 = host ∧
        s = m.1 ++ m.2.2 := by
    intro scheme r2 hs hscheme h
    obtain ⟨r3, hs3, h⟩ := reLit_eq_some h
    obtain ⟨host, r4, hs4, hne, hhost, h⟩ := rePlus_eq_some h
    have hhost' : ∀ c ∈ host, c ≠ ':' ∧ c ≠ '/' := by
      intro c hc
      simpa using hhost c hc
    rcases reOpt_eq_some h with h | h
    · obtain ⟨r5, hs5, h⟩ := reLit_eq_some h
      obtain ⟨ds, r6, hs6, hdne, hds, h⟩ := rePlus_eq_some h
      obtain ⟨hm, hnl⟩ := reTail_eq_some (f := fun l => (between s s l, between s r3 r4, l)) h
      have e1 : s = (scheme ++ "://".toList ++ host ++ ':' :: ds) ++ r6 := by
        rw [hs, hs3, hs4, hs5, hs6]; simp
      have e2 : s = (scheme ++ "://".toList) ++ (host ++ r4) := by
        rw [hs, hs3, hs4]; simp
      refine ⟨scheme, host, ':' :: ds, hscheme, hne, hhost', Or.inr ⟨ds, hdne, hds, rfl⟩, ?_⟩
      subst hm
      refine ⟨hnl, ?_, ?_, ?_⟩
      · show between s s r6 = _
        rw [e1, between_self]
      · show between s r3 r4 = _
        rw [hs4, e2, between_mid]
      · show s = between s s r6 ++ r6
        conv => rhs; rw [e1, between_self]
        exact e1
    · obtain ⟨hm, hnl⟩ := reTail_eq_some (f := fun l => (between s s l, between s r3 r4, l)) h
      have e1 : s = (scheme ++ "://".toList ++ host) ++ r4 := by
        rw [hs, hs3, hs4]; simp
      have e2 : s = (scheme ++ "://".toList) ++ (host ++ r4) := by
        rw [hs, hs3, hs4]; simp
      refine ⟨scheme, host, [], hscheme, hne, hhost', Or.inl rfl, ?_⟩
      subst hm
      refine ⟨hnl, ?_, ?_, ?_⟩
      · show between s s r4 = _
        rw [e1, between_self, List.append_nil]
      · show between s r3 r4 = _
        rw [hs4, e2, between_mid]
      · show s = between s s r4 ++ r4
        conv => rhs; rw [e1, between_self]
        exact e1
  rcases reOpt_eq_some h with h | h
  · obtain ⟨r2, hs2, h⟩ := reLit_eq_some h
    exact key "https".toList r2 (by rw [hs1, hs2]; rfl) (Or.inr rfl) h
  · exact key "http".toList r1 hs1 (Or.inl rfl) h

/-- What a match of `sshRe` looks like. -/
theorem sshRe_eq_some {s : Str} {m : Str × Str × Str} (h : sshRe s = some m) :
    ∃ user host : Str,
      (user = [] ∨ ∃ u : Str, u ≠ [] ∧ '@' ∉ u ∧ user = u ++ ['@']) ∧ host ≠ [] ∧
      ':' ∉ host ∧ '\n' ∉ m.2.2 ∧ m.1 = user ++ host ++ [':'] ∧ m.2.1 = host ∧
      s = m.1 ++ m.2.2 := by
  unfold sshRe at h
  have key : ∀ (user r1 : Str), s = user ++ r1 →
      (user = [] ∨ ∃ u : Str, u ≠ [] ∧ '@' ∉ u ∧ user = u ++ ['@']) →
      rePlus (fun c => c != ':') (fun hostEnd =>
        reLit ":".toList (fun lastStart =>
          reStar reDot (reEnd (fun _ =>
            some (between s s lastStart, between s r1 hostEnd, lastStart))) lastStart)
          hostEnd) r1 = some m →
      ∃ user host : Str,
        (user = [] ∨ ∃ u : Str, u ≠ [] ∧ '@' ∉ u ∧ user = u ++ ['@']) ∧ host ≠ [] ∧
        ':' ∉ host ∧ '\n' ∉ m.2.2 ∧ m.1 = user ++ host ++ [':'] ∧ m.2.1 = host ∧
        s = m.1 ++ m.2.2 := by
    intro user r1 hs huser h
    obtain ⟨host, r2, hs2, hne, hhost, h⟩ := rePlus_eq_some h
    obtain ⟨r3, hs3, h⟩ := reLit_eq_some h
    obtain ⟨hm, hnl⟩ := reTail_eq_some (f := fun l => (between s s l, between s r1 r2, l)) h
    have hhost' : ':' ∉ host := by
      intro hc
      simpa using hhost _ hc
    have e1 : s = (user ++ host ++ [':']) ++ r3 := by
      rw [hs, hs2, hs3]; simp
    have e2 : s = user ++ (host ++ r2) := by
      rw [hs, hs2]
    refine ⟨user, host, huser, hne, hhost', ?_⟩
    subst hm
    refine ⟨hnl, ?_, ?_, ?_⟩
    · show between s s r3 = _
      rw [e1, between_self]
    · show between s r1 r2 = _
      rw [hs2, e2, between_mid]
    · show s = between s s r3 ++ r3
      conv => rhs; rw [e1, between_self]
      exact e1
  rcases reOpt_eq_some h with h | h
  · obtain ⟨u, r0, hs0, hune, hu, h⟩ := rePlus_eq_some h
    obtain ⟨r1, hs1, h⟩ := reLit_eq_some h
    refine key (u ++ ['@']) r1 (by rw [hs0, hs1]; simp) (Or.inr ⟨u, hune, ?_, rfl⟩) h
    intro hc
    simpa using hu _ hc
  · exact key [] s rfl (Or.inl rfl) h

theorem reOpt_of_some {α : Type} {r : (Str → Option α) → Str → Option α}
    {k : Str → Option α} {s : Str} {v : α} (h : r k s = some v) : reOpt r k s = some v := by
  simp [reOpt, h]

theorem reOpt_of_none {α : Type} {r : (Str → Option α) → Str → Option α}
    {k : Str → Option α} {s : Str} (h : r k s = none) : reOpt r k s = k s := by
  simp [reOpt, h]

theorem reLit_cons_ne {α : Type} (c d : Char) (l s : Str) (k : Str → Option α) (h : c ≠ d) :
    reLit (c :: l) k (d :: s) = none := by
  simp [reLit, List.isPrefixOf, h]

theorem reLit_nil_input {α : Type} (c : Char) (l : Str) (k : Str → Option α) :
    reLit (c :: l) k [] = none := by
  simp [reLit, List.isPrefixOf]

/-- A string of the shape `scheme://host[:port]rest` matches `httpRe` with the
expected groups, when `rest` is empty or starts with a slash and holds no
newline. -/
theorem httpRe_match (scheme host port rest : Str)
    (hscheme : scheme = "http".toList ∨ scheme = "https".toList) (hne : host ≠ [])
    (hhost : ∀ c ∈ host, c ≠ ':' ∧ c ≠ '/')
    (hport : port = [] ∨ ∃ ds : Str, ds ≠ [] ∧ (∀ c ∈ ds, c.isDigit = true) ∧ port = ':' :: ds)
    (hrest : ∀ c ∈ rest.head?, c = '/') (hnl : '\n' ∉ rest) :
    httpRe (scheme ++ "://".toList ++ host ++ port ++ rest)
      = some (scheme ++ "://".toList ++ host ++ port, host, rest) := by
  generalize hs : scheme ++ "://".toList ++ host ++ port ++ rest = s
  have e1 : s = (scheme ++ "://".toList ++ host ++ port) ++ rest := hs.symm
  have e2 : s = (scheme ++ "://".toList) ++ (host ++ (port ++ rest)) := by
    rw [← hs]; simp
  -- the tail `(.*)$`
  have step3 : reStar reDot (reEnd (fun _ =>
      some (between s s rest, between s (host ++ (port ++ rest)) (port ++ rest), rest))) rest
      = some (scheme ++ "://".toList ++ host ++ port, host, rest) := by
    refine (reTail_of_no_newline
      (fun l => (between s s l, between s (host ++ (port ++ rest)) (port ++ rest), l))
      rest hnl).trans ?_
    show some (between s s rest, between s (host ++ (port ++ rest)) (port ++ rest), rest) = _
    rw [e2, between_mid, ← e2, e1, between_self]
  -- the optional port
  have step2 : reOpt (fun k => reLit ":".toList (rePlus Char.isDigit k)) (fun lastStart =>
      reStar reDot (reEnd (fun _ =>
        some (between s s lastStart, between s (host ++ (port ++ rest)) (port ++ rest),
          lastStart))) lastStart) (port ++ rest)
      = some (scheme ++ "://".toList ++ host ++ port, host, rest) := by
    rcases hport with hp | ⟨ds, hdne, hds, hp⟩
    · have e3 : port ++ rest = rest := by rw [hp]; rfl
      rw [reOpt_of_none]
      · rw [e3] at step3 ⊢
        exact step3
      · rw [e3]
        cases rest with
        | nil => exact reLit_nil_input _ _ _
        | cons d rs =>
          have : d = '/' := hrest d (by simp)
          subst this
          exact reLit_cons_ne _ _ _ _ _ (by decide)
    · apply reOpt_of_some
      have e3 : port ++ rest = ":".toList ++ (ds ++ rest) := by rw [hp]; rfl
      show reLit ":".toList _ (port ++ rest) = _
      rw [e3, reLit_append, ← e3]
      apply rePlus_greedy _ _ ds rest _ hdne hds
      · intro c hc
        have : c = '/' := hrest c hc
        subst this
        decide
      · exact step3
  -- the host
  have hhead : ∀ c ∈ (port ++ rest).head?, (c != ':' && c != '/') = false := by
    intro c hc
    rcases hport with hp | ⟨ds, _, _, hp⟩
    · rw [hp] at hc
      have : c = '/' := hrest c (by simpa using hc)
      subst this
      decide
    · rw [hp] at hc
      have : c = ':' := by simpa using hc.symm
      subst this
      decide
  have step1 : rePlus (fun c => c != ':' && c != '/') (fun hostEnd =>
      reOpt (fun k => reLit ":".toList (rePlus Char.isDigit k)) (fun lastStart =>
        reStar reDot (reEnd (fun _ =>
          some (between s s lastStart, between s (host ++ (port ++ rest)) hostEnd,
            lastStart))) lastStart) hostEnd) (host ++ (port ++ rest))
      = some (scheme ++ "://".toList ++ host ++ port, host, rest) := by
    refine rePlus_greedy _ _ host (port ++ rest) _ hne ?_ hhead ?_
    · intro c hc
      have := hhost c hc
      simp [this.1, this.2]
    · exact step2
  unfold httpRe
  rcases hscheme with hsc | hsc
  · have e4 : s = "http".toList ++ ("://".toList ++ (host ++ (port ++ rest))) := by
      rw [e2, hsc]; simp
    conv => lhs; arg 3; rw [e4]
    rw [reLit_append, reOpt_of_none, reLit_append]
    · exact step1
    · exact reLit_cons_ne _ _ _ _ _ (by decide)
  · have e4 : s = "http".toList ++ ("s".toList ++ ("://".toList ++ (host ++ (port ++ rest)))) := by
      rw [e2, hsc]; simp
    conv => lhs; arg 3; rw [e4]
    rw [reLit_append]
    apply reOpt_of_some
    rw [reLit_append, reLit_append]
    exact step1

/-- A string of the shape `user@host:rest` matches `sshRe` with the expected
groups, when `rest` holds no newline. -/
theorem sshRe_match (u host rest : Str) (hune : u ≠ []) (hu : '@' ∉ u) (hne : host ≠ [])
    (hhost : ':' ∉ host) (hnl : '\n' ∉ rest) :
    sshRe (u ++ '@' :: (host ++ ':' :: rest)) = some (u ++ '@' :: (host ++ [':']), host, rest) := by
  generalize hs : u ++ '@' :: (host ++ ':' :: rest) = s
  have e1 : s = (u ++ '@' :: (host ++ [':'])) ++ rest := by rw [← hs]; simp
  have e2 : s = (u ++ ['@']) ++ (host ++ (':' :: rest)) := by rw [← hs]; simp
  have step3 : reStar reDot (reEnd (fun _ =>
      some (between s s rest, between s (host ++ (':' :: rest)) (':' :: rest), rest))) rest
      = some (u ++ '@' :: (host ++ [':']), host, rest) := by
    refine (reTail_of_no_newline
      (fun l => (between s s l, between s (host ++ (':' :: rest)) (':' :: rest), l))
      rest hnl).trans ?_
    show some (between s s rest, between s (host ++ (':' :: rest)) (':' :: rest), rest) = _
    rw [e2, between_mid, ← e2, e1, between_self]
  have step2 : reLit ":".toList (fun lastStart =>
      reStar reDot (reEnd (fun _ =>
        some (between s s lastStart, between s (host ++ (':' :: rest)) (':' :: rest),
          lastStart))) lastStart) (':' :: rest)
      = some (u ++ '@' :: (host ++ [':']), host, rest) := by
    have : (':' :: rest) = ":".toList ++ rest := rfl
    rw [this, reLit_append, ← this]
    exact step3
  have step1 : rePlus (fun c => c != ':') (fun hostEnd =>
      reLit ":".toList (fun lastStart =>
        reStar reDot (reEnd (fun _ =>
          some (between s s lastStart, between s (host ++ (':' :: rest)) hostEnd,
            lastStart))) lastStart) hostEnd) (host ++ (':' :: rest))
      = some (u ++ '@' :: (host ++ [':']), host, rest) := by
    refine rePlus_greedy _ _ host (':' :: rest) _ hne ?_ ?_ ?_
    · intro c hc
      simp only [bne_iff_ne, ne_eq]
      rintro rfl
      exact hhost hc
    · intro c hc
      have : c = ':' := by simpa using hc.symm
      subst this
      decide
    · exact step2
  unfold sshRe
  apply reOpt_of_some
  conv => lhs; arg 3; rw [← hs]
  apply rePlus_greedy _ _ u ('@' :: (host ++ ':' :: rest)) _ hune
  · intro c hc
    simp only [bne_iff_ne, ne_eq]
    rintro rfl
    exact hu hc
  · intro c hc
    have : c = '@' := by simpa using hc.symm
    subst this
    decide
  · have : ('@' :: (host ++ ':' :: rest)) = "@".toList ++ (host ++ (':' :: rest)) := rfl
    rw [this, reLit_append]
    exact step1

/-! ## Lemmas: `path.Clean` -/

theorem intercalate_cons_cons (sep : Str) (a b : Str) (l : List Str) :
    sep.intercalate (a :: b :: l) = a ++ sep ++ sep.intercalate (b :: l) := by
  simp [List.intercalate, List.intersperse]

theorem intercalate_concat (sep : Str) (l : List Str) (x : Str) (h : l ≠ []) :
    sep.intercalate (l ++ [x]) = sep.intercalate l ++ sep ++ x := by
  induction l with
  | nil => exact absurd rfl h
  | cons a t ih =>
    cases t with
    | nil => simp [List.intercalate, List.intersperse]
    | cons b t =>
      have := ih (by simp)
      rw [List.cons_append, List.cons_append, intercalate_cons_cons, ← List.cons_append, this,
        intercalate_cons_cons]
      simp

theorem intercalate_single (sep : Str) (a : Str) : sep.intercalate [a] = a := by
  simp [List.intercalate, List.intersperse]

theorem intercalate_nil' (sep : Str) : sep.intercalate ([] : List Str) = [] := by
  simp [List.intercalate, List.intersperse]

theorem intercalate_eq_nil {sep : Str} {l : List Str} (hne : ∀ g ∈ l, g ≠ [])
    (h : sep.intercalate l = []) : l = [] := by
  cases l with
  | nil => rfl
  | cons a t =>
    exfalso
    cases t with
    | nil =>
      rw [intercalate_single] at h
      exact hne a (by simp) h
    | cons b t =>
      rw [intercalate_cons_cons] at h
      have : a = [] := by
        have := congrArg List.length h
        simp at this
        exact this.1
      exact hne a (by simp) this

theorem render_concat (rooted : Bool) (st : List Str) (e : Str) (h : st ≠ []) :
    render rooted (st ++ [e]) = render rooted st ++ '/' :: e := by
  simp [render, intercalate_concat _ _ _ h]

theorem render_single (rooted : Bool) (e : Str) :
    render rooted [e] = (if rooted then ['/'] else []) ++ e := by
  simp [render, intercalate_single]

theorem render_nil (rooted : Bool) : render rooted [] = if rooted then ['/'] else [] := by
  simp [render, intercalate_nil']

theorem dots_succ (m : Nat) : dots (m + 1) = dots m ++ [['.', '.']] := by
  simp [dots, List.replicate_succ']

theorem dots_ne_nil {m : Nat} : ∀ g ∈ dots m, g ≠ [] := by
  intro g hg
  simp [dots] at hg
  simp [hg.2]

theorem render_length_le (rooted : Bool) (a b : List Str) :
    (render rooted a).length ≤ (render rooted (a ++ b)).length := by
  induction b using List.reverseRecOn with
  | nil => simp
  | append_singleton b e ih =>
    refine le_trans ih ?_
    by_cases h : a ++ b = []
    · have ha : a = [] := (List.append_eq_nil.mp h).1
      have hb : b = [] := (List.append_eq_nil.mp h).2
      subst ha; subst hb
      simp [render_single, render_nil]
    · rw [← List.append_assoc, render_concat _ _ _ h]
      simp

/-- The backtracking scan stops right before the last element. -/
theorem cleanBacktrack_stop (a b : Str) (x : Char) (dotdot : Nat) (hb : '/' ∉ b)
    (hd : dotdot ≤ a.length) (hx : x = '/' ∨ dotdot = a.length) :
    cleanBacktrack (a ++ x :: b) dotdot (a.length + b.length) = a.length := by
  induction b using List.reverseRecOn with
  | nil =>
    simp only [List.length_nil, Nat.add_zero]
    cases ha : a.length with
    | zero => simp [cleanBacktrack]
    | succ n =>
      simp only [cleanBacktrack]
      rw [if_neg]
      rintro ⟨h1, h2⟩
      rcases hx with hx | hx
      · apply h2
        rw [← ha]
        simp [List.getD_append_right, hx]
      · omega
  | append_singleton b y ih =>
    have hy : y ≠ '/' := by
      intro h
      apply hb
      simp [h]
    have hb' : '/' ∉ b := fun h => hb (by simp [h])
    have := ih hb'
    simp only [List.length_append, List.length_singleton]
    rw [← Nat.add_assoc]
    simp only [cleanBacktrack]
    have hget : (a ++ x :: (b ++ [y])).getD (a.length + b.length + 1) '/' = y := by
      have e : a ++ x :: (b ++ [y]) = (a ++ x :: b) ++ [y] := by simp
      have hlen : (a ++ x :: b).length = a.length + b.length + 1 := by simp; omega
      rw [e, List.getD_append_right _ _ _ _ (by rw [hlen]), hlen]
      simp
    rw [if_pos ⟨by omega, by rw [hget]; exact hy⟩]
    -- the scan below the last character does not see it
    have hind : ∀ w, w ≤ a.length + b.length →
        cleanBacktrack (a ++ x :: (b ++ [y])) dotdot w = cleanBacktrack (a ++ x :: b) dotdot w := by
      intro w hw
      induction w with
      | zero => simp [cleanBacktrack]
      | succ w ihw =>
        simp only [cleanBacktrack]
        have e : a ++ x :: (b ++ [y]) = (a ++ x :: b) ++ [y] := by simp
        have hg : (a ++ x :: (b ++ [y])).getD (w + 1) '/' = (a ++ x :: b).getD (w + 1) '/' := by
          rw [e, List.getD_append _ _ _ _ (by simp; omega)]
        rw [hg, ihw (by omega)]
    rw [hind _ le_rfl]
    exact this

theorem render_length_pos (rooted : Bool) (st : List Str) (h : st ≠ [])
    (hne : ∀ g ∈ st, g ≠ []) : (render rooted []).length < (render rooted st).length := by
  have h1 : ['/'].intercalate st ≠ [] := fun h2 => h (intercalate_eq_nil hne h2)
  have h2 : 0 < (['/'].intercalate st).length := List.length_pos.mpr h1
  cases rooted <;> simp [render, intercalate_nil'] <;> omega

theorem Good.ne_nil {g : Str} (h : Good g) : g ≠ [] := h.1

theorem stack_ne_nil {m : Nat} {goods : List Str} (hg : ∀ g ∈ goods, Good g) :
    ∀ g ∈ dots m ++ goods, g ≠ [] := by
  intro g hmem
  rcases List.mem_append.mp hmem with h | h
  · exact dots_ne_nil g h
  · exact (hg g h).1

theorem stackElem_inv (rooted : Bool) (s : Nat × List Str) (e : Str)
    (hm : rooted = true → s.1 = 0) (hg : ∀ g ∈ s.2, Good g) (he : '/' ∉ e) :
    (rooted = true → (stackElem rooted s e).1 = 0) ∧ ∀ g ∈ (stackElem rooted s e).2, Good g := by
  unfold stackElem
  split
  · exact ⟨hm, hg⟩
  · rename_i h1
    split
    · split
      · exact ⟨hm, fun g hmem => hg g (List.mem_of_mem_dropLast hmem)⟩
      · split
        · exact ⟨hm, hg⟩
        · rename_i hr
          exact ⟨fun h => absurd h hr, hg⟩
    · rename_i h2
      refine ⟨hm, ?_⟩
      intro g hmem
      rcases List.mem_append.mp hmem with h | h
      · exact hg g h
      · have : g = e := by simpa using h
        subst this
        exact ⟨fun h => h1 (Or.inl h), fun h => h1 (Or.inr h), h2, he⟩

theorem stackElem_skip (rooted : Bool) (s : Nat × List Str) (e : Str)
    (h : e = [] ∨ e = ['.']) : stackElem rooted s e = s := by
  simp [stackElem, h]

theorem stackElem_pop (rooted : Bool) (m : Nat) (init : List Str) (g : Str) :
    stackElem rooted (m, init ++ [g]) ['.', '.'] = (m, init) := by
  simp [stackElem]

theorem stackElem_up_rooted (m : Nat) : stackElem true (m, []) ['.', '.'] = (m, []) := by
  simp [stackElem]

theorem stackElem_up (m : Nat) : stackElem false (m, []) ['.', '.'] = (m + 1, []) := by
  simp [stackElem]

theorem stackElem_good (rooted : Bool) (m : Nat) (goods : List Str) (e : Str) (h : Good e) :
    stackElem rooted (m, goods) e = (m, goods ++ [e]) := by
  simp [stackElem, h.1, h.2.1, h.2.2.1]

/-- One step of the buffer loop of `path.Clean` is one step on the elements. -/
theorem cleanElem_rep (rooted : Bool) (s : Nat × List Str) (e : Str)
    (hm : rooted = true → s.1 = 0) (hg : ∀ g ∈ s.2, Good g) (he : '/' ∉ e) :
    cleanElem rooted (render rooted (dots s.1 ++ s.2), (render rooted (dots s.1)).length) e
      = (render rooted (dots (stackElem rooted s e).1 ++ (stackElem rooted s e).2),
          (render rooted (dots (stackElem rooted s e).1)).length) := by
  obtain ⟨m, goods⟩ := s
  simp only at hm hg ⊢
  by_cases h0 : e = []
  · rw [stackElem_skip _ _ _ (Or.inl h0)]
    simp [cleanElem, h0]
  by_cases h1 : e = ['.']
  · rw [stackElem_skip _ _ _ (Or.inr h1)]
    simp [cleanElem, h1]
  by_cases h2 : e = ['.', '.']
  · subst h2
    simp only [cleanElem, if_neg h0, if_neg h1, if_true]
    rcases List.eq_nil_or_concat goods with hgn | ⟨init, g, hgc⟩
    · subst hgn
      simp only [List.append_nil, lt_irrefl, if_false]
      cases rooted with
      | true => rw [stackElem_up_rooted]; simp
      | false =>
        rw [stackElem_up]
        simp only [Bool.false_eq_true, if_false, dots_succ, List.append_nil]
        cases m with
        | zero => simp [dots, render, intercalate_nil', intercalate_single]
        | succ n =>
          have hne : dots (n + 1) ≠ [] := by simp [dots]
          have hpos := render_length_pos false (dots (n + 1)) hne dots_ne_nil
          have hpos' : 0 < (render false (dots (n + 1))).length := by
            simpa [render_nil] using hpos
          rw [if_pos hpos', render_concat _ _ _ hne]
          simp
    · rw [List.concat_eq_append] at hgc
      subst hgc
      rw [stackElem_pop]
      have hgood : Good g := hg g (by simp)
      have hinit : ∀ x ∈ init, Good x := fun x hx => hg x (by simp [hx])
      simp only
      by_cases hst : dots m ++ init = []
      · have hm0 : dots m = [] := (List.append_eq_nil.mp hst).1
        have hi0 : init = [] := (List.append_eq_nil.mp hst).2
        subst hi0
        obtain ⟨x, b, hxb⟩ := List.exists_cons_of_ne_nil hgood.1
        subst hxb
        have hb : '/' ∉ b := fun h => hgood.2.2.2 (by simp [h])
        rw [hm0]
        have e1 : render rooted ([] ++ ([] ++ [x :: b])) = render rooted [] ++ x :: b := by
          simp [render_single, render_nil]
        have hlen : ((render rooted []) ++ x :: b).length - 1
            = (render rooted []).length + b.length := by simp
        have hstop := cleanBacktrack_stop (render rooted []) b x (render rooted []).length hb
          le_rfl (Or.inr rfl)
        rw [e1, if_pos (by simp), hlen, hstop]
        simp
      · have hsplit : render rooted (dots m ++ (init ++ [g]))
            = render rooted (dots m ++ init) ++ '/' :: g := by
          rw [← List.append_assoc, render_concat _ _ _ hst]
        have hle : (render rooted (dots m)).length ≤ (render rooted (dots m ++ init)).length :=
          render_length_le _ _ _
        have hlen : (render rooted (dots m ++ init) ++ '/' :: g).length - 1
            = (render rooted (dots m ++ init)).length + g.length := by simp
        have hstop := cleanBacktrack_stop (render rooted (dots m ++ init)) g '/'
          (render rooted (dots m)).length hgood.2.2.2 hle (Or.inl rfl)
        rw [hsplit, if_pos (by simp; omega), hlen, hstop]
        simp
  · have hgood : Good e := ⟨h0, h1, h2, he⟩
    rw [stackElem_good _ _ _ _ hgood]
    simp only [cleanElem, if_neg h0, if_neg h1, if_neg h2]
    by_cases hst : dots m ++ goods = []
    · rw [hst]
      have : dots m ++ (goods ++ [e]) = [e] := by rw [← List.append_assoc, hst]; rfl
      rw [this]
      cases rooted <;> simp [render_nil, render_single]
    · have hpos := render_length_pos rooted (dots m ++ goods) hst (stack_ne_nil hg)
      have : dots m ++ (goods ++ [e]) = (dots m ++ goods) ++ [e] := by simp
      rw [this, render_concat _ _ _ hst]
      cases rooted
      · simp only [render_nil] at hpos
        simp at hpos
        have hne : render false (dots m ++ goods) ≠ [] := List.length_pos.mp hpos
        simp [hne]
      · simp only [render_nil] at hpos
        simp at hpos
        have : (render true (dots m ++ goods)).length ≠ 1 := by omega
        simp [this]

theorem not_mem_of_mem_splitOn {p : Str} : ∀ e ∈ p.splitOn '/', '/' ∉ e := by
  induction p with
  | nil => simp
  | cons c cs ih =>
    intro e he
    rw [List.splitOn, List.splitOnP_cons] at he
    rw [← List.splitOn] at he
    split at he
    · rename_i hc
      rcases List.mem_cons.mp he with h | h
      · simp [h]
      · exact ih e h
    · rename_i hc
      have hc' : c ≠ '/' := by simpa using hc
      cases hsp : List.splitOn '/' cs with
      | nil => rw [hsp] at he; simp at he
      | cons a t =>
        rw [hsp] at he ih
        simp only [List.modifyHead_cons, List.mem_cons] at he
        rcases he with h | h
        · subst h
          have := ih a (by simp)
          simp [this, Ne.symm hc']
        · exact ih e (by simp [h])

theorem foldl_cleanElem_rep (rooted : Bool) (es : List Str) (hes : ∀ e ∈ es, '/' ∉ e) :
    ∀ (s : Nat × List Str), (rooted = true → s.1 = 0) → (∀ g ∈ s.2, Good g) →
      es.foldl (cleanElem rooted) (render rooted (dots s.1 ++ s.2), (render rooted (dots s.1)).length)
        = (render rooted (dots (es.foldl (stackElem rooted) s).1 ++ (es.foldl (stackElem rooted) s).2),
            (render rooted (dots (es.foldl (stackElem rooted) s).1)).length) ∧
      (rooted = true → (es.foldl (stackElem rooted) s).1 = 0) ∧
      ∀ g ∈ (es.foldl (stackElem rooted) s).2, Good g := by
  induction es with
  | nil => intro s hm hg; exact ⟨rfl, hm, hg⟩
  | cons e es ih =>
    intro s hm hg
    have he : '/' ∉ e := hes e (by simp)
    have hinv := stackElem_inv rooted s e hm hg he
    simp only [List.foldl_cons]
    rw [cleanElem_rep rooted s e hm hg he]
    exact ih (fun x hx => hes x (by simp [hx])) _ hinv.1 hinv.2

/-- The elements of a cleaned path: no `..` under a root, every other
element copied from the input. -/
theorem cleanStack_inv (p : Str) :
    (isRooted p = true → (cleanStack p).1 = 0) ∧ ∀ g ∈ (cleanStack p).2, Good g :=
  (foldl_cleanElem_rep (isRooted p) (p.splitOn '/') not_mem_of_mem_splitOn (0, [])
    (fun _ => rfl) (by simp)).2

/-- Go `path.Clean` computed on path elements. -/
theorem pathClean_eq (p : Str) : pathClean p = cleanOut (isRooted p) (cleanStack p) := by
  by_cases hp : p = []
  · subst hp
    decide
  · have h := (foldl_cleanElem_rep (isRooted p) (p.splitOn '/') not_mem_of_mem_splitOn (0, [])
      (fun _ => rfl) (by simp)).1
    have hinit : (if (decide (p.head? = some '/')) = true then ((['/'], 1) : Str × Nat) else ([], 0))
        = (render (isRooted p) (dots 0 ++ []), (render (isRooted p) (dots 0)).length) := by
      unfold isRooted
      cases decide (p.head? = some '/') <;> simp [render, dots, intercalate_nil']
    have h' : (p.splitOn '/').foldl (cleanElem (decide (p.head? = some '/')))
        (if (decide (p.head? = some '/')) = true then ((['/'], 1) : Str × Nat) else ([], 0))
        = (render (isRooted p) (dots (cleanStack p).1 ++ (cleanStack p).2),
            (render (isRooted p) (dots (cleanStack p).1)).length) := by
      rw [hinit]
      exact h
    unfold pathClean
    rw [if_neg hp]
    simp only
    rw [h']
    rfl

theorem foldl_stackElem_dots (m k : Nat) :
    (dots m).foldl (stackElem false) (k, []) = (k + m, []) := by
  induction m generalizing k with
  | zero => simp [dots]
  | succ m ih =>
    have : dots (m + 1) = ['.', '.'] :: dots m := by simp [dots, List.replicate_succ]
    rw [this, List.foldl_cons, stackElem_up, ih]
    congr 1
    omega

theorem foldl_stackElem_goods (rooted : Bool) (m : Nat) (goods : List Str)
    (hg : ∀ g ∈ goods, Good g) (acc : List Str) :
    goods.foldl (stackElem rooted) (m, acc) = (m, acc ++ goods) := by
  induction goods generalizing acc with
  | nil => simp
  | cons g t ih =>
    rw [List.foldl_cons, stackElem_good _ _ _ _ (hg g (by simp)),
      ih (fun x hx => hg x (by simp [hx]))]
    simp

/-- Folding the elements of a normal stack rebuilds it. -/
theorem foldl_stackElem_normal (rooted : Bool) (m : Nat) (goods : List Str)
    (hm : rooted = true → m = 0) (hg : ∀ g ∈ goods, Good g) :
    (dots m ++ goods).foldl (stackElem rooted) (0, []) = (m, goods) := by
  rw [List.foldl_append]
  cases rooted with
  | true =>
    rw [hm rfl]
    simp only [dots, List.replicate_zero, List.foldl_nil]
    rw [foldl_stackElem_goods _ _ _ hg]
    simp
  | false =>
    rw [foldl_stackElem_dots, foldl_stackElem_goods _ _ _ hg]
    simp

theorem splitOn_render (rooted : Bool) (st : List Str) (hst : st ≠ [])
    (hns : ∀ e ∈ st, '/' ∉ e) :
    (render rooted st).splitOn '/' = (if rooted then [[]] else []) ++ st := by
  cases rooted with
  | false =>
    simp only [render, Bool.false_eq_true, if_false, List.nil_append]
    exact List.splitOn_intercalate _ '/' hns hst
  | true =>
    obtain ⟨a, t, rfl⟩ := List.exists_cons_of_ne_nil hst
    have e1 : render true (a :: t) = ['/'].intercalate ([] :: a :: t) := by
      rw [intercalate_cons_cons]
      simp [render]
    rw [e1]
    simp only [if_true]
    exact List.splitOn_intercalate _ '/'
      (fun l hl => by
        rcases List.mem_cons.mp hl with h | h
        · simp [h]
        · exact hns l h) (by simp)

theorem isRooted_render (rooted : Bool) (st : List Str)
    (hhead : rooted = false → ∀ e ∈ st.head?, e ≠ [] ∧ '/' ∉ e) :
    isRooted (render rooted st) = rooted := by
  cases rooted with
  | true => simp [isRooted, render]
  | false =>
    cases st with
    | nil => simp [isRooted, render, intercalate_nil']
    | cons a t =>
      obtain ⟨hne, hns⟩ := hhead rfl a (by simp)
      obtain ⟨x, b, rfl⟩ := List.exists_cons_of_ne_nil hne
      have hx : x ≠ '/' := fun h => hns (by simp [h])
      cases t with
      | nil => simp [isRooted, render, intercalate_single, hx]
      | cons c t => simp [isRooted, render, intercalate_cons_cons, hx]

theorem foldl_stackElem_skip_nil (rooted : Bool) (st : List Str) (s : Nat × List Str) :
    (((if rooted then [[]] else []) : List Str) ++ st).foldl (stackElem rooted) s
      = st.foldl (stackElem rooted) s := by
  cases rooted with
  | true => simp [stackElem_skip]
  | false => simp

/-- The elements of the cleaned form of a spelled-out path. -/
theorem cleanStack_render (rooted : Bool) (st : List Str) (hst : st ≠ [])
    (hns : ∀ e ∈ st, '/' ∉ e) (hhead : rooted = false → ∀ e ∈ st.head?, e ≠ [] ∧ '/' ∉ e) :
    cleanStack (render rooted st) = st.foldl (stackElem rooted) (0, []) := by
  unfold cleanStack
  rw [isRooted_render rooted st hhead, splitOn_render rooted st hst hns,
    foldl_stackElem_skip_nil]

/-! ## Lemmas: cleaned paths as element lists -/

theorem pathClean_eq_stackOf (p : Str) : pathClean p = cleanOutL (isRooted p) (stackOf p) :=
  pathClean_eq p

theorem norm_stackOf (p : Str) : Norm (isRooted p) (stackOf p) :=
  ⟨(cleanStack p).1, (cleanStack p).2, rfl, (cleanStack_inv p).1, (cleanStack_inv p).2⟩

theorem norm_nil (rooted : Bool) : Norm rooted [] :=
  ⟨0, [], rfl, fun _ => rfl, by simp⟩

theorem norm_of_good (rooted : Bool) {st : List Str} (h : ∀ g ∈ st, Good g) : Norm rooted st :=
  ⟨0, st, by simp [dots], fun _ => rfl, h⟩

theorem Norm.elem {rooted : Bool} {st : List Str} (h : Norm rooted st) :
    ∀ e ∈ st, e ≠ [] ∧ '/' ∉ e ∧ e ≠ ['.'] := by
  obtain ⟨m, goods, rfl, _, hg⟩ := h
  intro e he
  rcases List.mem_append.mp he with h | h
  · have : e = ['.', '.'] := by
      simp [dots] at h
      exact h.2
    subst this
    decide
  · exact ⟨(hg e h).1, (hg e h).2.2.2, (hg e h).2.1⟩

theorem Norm.init {rooted : Bool} {init : List Str} {g : Str} (h : Norm rooted (init ++ [g])) :
    Norm rooted init := by
  obtain ⟨m, goods, hst, hm, hg⟩ := h
  rcases List.eq_nil_or_concat goods with hgn | ⟨gi, gl, hgc⟩
  · subst hgn
    rw [List.append_nil] at hst
    cases m with
    | zero => simp [dots] at hst
    | succ k =>
      rw [dots_succ] at hst
      have := List.append_inj' hst rfl
      exact ⟨k, [], by simp [this.1], fun hr => by have := hm hr; omega, by simp⟩
  · rw [List.concat_eq_append] at hgc
    subst hgc
    rw [← List.append_assoc] at hst
    have := List.append_inj' hst rfl
    exact ⟨m, gi, this.1, hm, fun x hx => hg x (by simp [hx])⟩

/-- In a cleaned path everything after an element other than `..` is a
copied element. -/
theorem Norm.good_after {rooted : Bool} {a b : List Str} {x : Str}
    (h : Norm rooted (a ++ x :: b)) (hx : x ≠ ['.', '.']) : ∀ g ∈ x :: b, Good g := by
  obtain ⟨m, goods, hst, _, hg⟩ := h
  rcases List.append_eq_append_iff.mp hst with ⟨c, h1, h2⟩ | ⟨c, h1, h2⟩
  · -- `dots m = a ++ c`, `x :: b = c ++ goods`
    cases c with
    | nil =>
      simp at h2
      intro g hgm
      exact hg g (by rw [← h2]; exact hgm)
    | cons y c =>
      exfalso
      simp at h2
      have : x ∈ dots m := by rw [h1]; simp [h2.1]
      simp [dots] at this
      exact hx this.2
  · -- `a = dots m ++ c`, `goods = c ++ x :: b`
    intro g hgm
    exact hg g (by rw [h2]; exact List.mem_append_right _ hgm)

theorem render_snoc_ne_nil (rooted : Bool) (init : List Str) (g : Str) (hg : g ≠ []) :
    render rooted (init ++ [g]) ≠ [] := by
  intro h
  have := congrArg List.length h
  by_cases hi : init = []
  · subst hi
    simp [render_single] at this
    exact hg this.2
  · rw [render_concat _ _ _ hi] at this
    simp at this

theorem cleanOutL_snoc (rooted : Bool) (init : List Str) (g : Str) (hg : g ≠ []) :
    cleanOutL rooted (init ++ [g]) = render rooted (init ++ [g]) := by
  simp [cleanOutL, render_snoc_ne_nil rooted init g hg]

theorem cleanOutL_nil (rooted : Bool) :
    cleanOutL rooted [] = if rooted then ['/'] else ['.'] := by
  cases rooted <;> simp [cleanOutL, render_nil]

theorem Norm.head {rooted : Bool} {st : List Str} (h : Norm rooted st) :
    rooted = false → ∀ e ∈ st.head?, e ≠ [] ∧ '/' ∉ e := by
  intro _ e he
  have := h.elem e (List.mem_of_mem_head? he)
  exact ⟨this.1, this.2.1⟩

/-- `path.Clean` leaves a cleaned path alone. -/
theorem pathClean_render {rooted : Bool} {st : List Str} (h : Norm rooted st) :
    pathClean (cleanOutL rooted st) = cleanOutL rooted st := by
  by_cases hst : st = []
  · subst hst
    cases rooted <;> decide
  · obtain ⟨init, g, hc⟩ := (List.eq_nil_or_concat st).resolve_left hst
    rw [List.concat_eq_append] at hc
    have hne : render rooted st ≠ [] := by
      rw [hc]
      exact render_snoc_ne_nil _ _ _ (h.elem g (by simp [hc])).1
    have e0 : cleanOutL rooted st = render rooted st := by simp [cleanOutL, hne]
    rw [e0, pathClean_eq, isRooted_render rooted st h.head,
      cleanStack_render rooted st hst (fun e he => (h.elem e he).2.1) h.head]
    obtain ⟨m, goods, hmg, hm, hg⟩ := h
    subst hmg
    rw [foldl_stackElem_normal rooted m goods hm hg]
    simp [cleanOut, hne]

/-- `path.Clean` drops the trailing slash of a parent directory. -/
theorem pathClean_render_slash {rooted : Bool} {st : List Str} (h : Norm rooted st)
    (hst : st ≠ []) : pathClean (render rooted st ++ ['/']) = cleanOutL rooted st := by
  have e1 : render rooted st ++ ['/'] = render rooted (st ++ [[]]) := by
    rw [render_concat _ _ _ hst]
  have hhead : rooted = false → ∀ e ∈ (st ++ [[]]).head?, e ≠ [] ∧ '/' ∉ e := by
    intro hr e he
    obtain ⟨a, t, rfl⟩ := List.exists_cons_of_ne_nil hst
    exact h.head hr e (by simpa using he)
  rw [e1, pathClean_eq, isRooted_render rooted _ hhead,
    cleanStack_render rooted _ (by simp) (fun e he => by
      rcases List.mem_append.mp he with h1 | h1
      · exact (h.elem e h1).2.1
      · simp at h1; simp [h1]) hhead]
  obtain ⟨m, goods, hmg, hm, hg⟩ := h
  rw [List.foldl_append, hmg, foldl_stackElem_normal rooted m goods hm hg]
  simp [cleanOut, cleanOutL, stackElem_skip]

/-! ## Lemmas: `path.Split`, `path.Ext`, `path.Base` on spelled-out paths -/

theorem pathSplit_append (a g : Str) (hg : '/' ∉ g) :
    pathSplit (a ++ '/' :: g) = (a ++ ['/'], g) := by
  unfold pathSplit
  rw [lastIndexByte_append hg]
  have e : a ++ '/' :: g = (a ++ ['/']) ++ g := by simp
  have hl : (a ++ ['/']).length = a.length + 1 := by simp
  simp only
  rw [e, List.take_left' hl, List.drop_left' hl]

theorem pathSplit_no_slash (g : Str) (hg : '/' ∉ g) : pathSplit g = ([], g) := by
  unfold pathSplit
  rw [lastIndexByte_eq_none.mpr hg]

theorem pathSplit_render_snoc (rooted : Bool) (init : List Str) (g : Str) (hg : '/' ∉ g) :
    pathSplit (render rooted (init ++ [g]))
      = (if init = [] then render rooted [] else render rooted init ++ ['/'], g) := by
  by_cases hi : init = []
  · subst hi
    rw [if_pos rfl]
    cases rooted with
    | false => simpa [render_single, render_nil] using pathSplit_no_slash g hg
    | true => simpa [render_single, render_nil] using pathSplit_append [] g hg
  · rw [if_neg hi, render_concat _ _ _ hi]
    exact pathSplit_append _ _ hg

theorem extLoop_append (g rest acc : Str) (hg : '/' ∉ g) (hrest : ∀ c ∈ rest.head?, c = '/') :
    extLoop (g ++ rest) acc = extLoop g acc := by
  induction g generalizing acc with
  | nil =>
    cases rest with
    | nil => rfl
    | cons c cs =>
      have : c = '/' := hrest c (by simp)
      simp [extLoop, this]
  | cons x xs ih =>
    have hx : x ≠ '/' := fun h => hg (by simp [h])
    have hxs : '/' ∉ xs := fun h => hg (by simp [h])
    simp only [List.cons_append, extLoop, if_neg hx]
    split
    · rfl
    · exact ih _ hxs

theorem pathExt_append (a g : Str) (hg : '/' ∉ g) : pathExt (a ++ '/' :: g) = pathExt g := by
  unfold pathExt
  have : (a ++ '/' :: g).reverse = g.reverse ++ '/' :: a.reverse := by simp
  rw [this]
  exact extLoop_append _ _ _ (by simpa using hg) (by simp)

theorem pathExt_render_snoc (rooted : Bool) (init : List Str) (g : Str) (hg : '/' ∉ g) :
    pathExt (render rooted (init ++ [g])) = pathExt g := by
  by_cases hi : init = []
  · subst hi
    cases rooted with
    | false => simp [render_single]
    | true => simpa [render_single] using pathExt_append [] g hg
  · rw [render_concat _ _ _ hi]
    exact pathExt_append _ _ hg

/-! ## Lemmas: `findRemoteGitR` -/

theorem splitAtGit_eq_none {l : List Str} :
    splitAtGit l = none ↔ ∀ g ∈ l, pathExt g ≠ ".git".toList := by
  induction l with
  | nil => simp [splitAtGit]
  | cons g rest ih =>
    simp only [splitAtGit]
    by_cases hg : pathExt g = ".git".toList
    · simp [hg]
    · rw [if_neg hg]
      cases hr : splitAtGit rest with
      | none =>
        have := ih.mp hr
        simp only [List.mem_cons, forall_eq_or_imp, true_iff]
        exact ⟨hg, this⟩
      | some v =>
        obtain ⟨r, d⟩ := v
        simp only [false_iff, reduceCtorEq]
        intro hall
        have := ih.mpr (fun x hx => hall x (by simp [hx]))
        rw [hr] at this
        cases this

theorem splitAtGit_eq_some {l r d : List Str} (h : splitAtGit l = some (r, d)) :
    l = d.reverse ++ r ∧ (∃ x r', r = x :: r' ∧ pathExt x = ".git".toList) ∧
      ∀ g ∈ d, pathExt g ≠ ".git".toList := by
  induction l generalizing r d with
  | nil => simp [splitAtGit] at h
  | cons g rest ih =>
    simp only [splitAtGit] at h
    by_cases hg : pathExt g = ".git".toList
    · rw [if_pos hg] at h
      simp only [Option.some.injEq, Prod.mk.injEq] at h
      obtain ⟨rfl, rfl⟩ := h
      exact ⟨by simp, ⟨g, rest, rfl, hg⟩, by simp⟩
    · rw [if_neg hg] at h
      cases hr : splitAtGit rest with
      | none => rw [hr] at h; cases h
      | some v =>
        obtain ⟨r0, d0⟩ := v
        rw [hr] at h
        simp only [Option.some.injEq, Prod.mk.injEq] at h
        obtain ⟨rfl, rfl⟩ := h
        obtain ⟨h1, h2, h3⟩ := ih hr
        refine ⟨by simp [h1], h2, ?_⟩
        intro x hx
        rcases List.mem_append.mp hx with hx | hx
        · exact h3 x hx
        · have : x = g := by simpa using hx
          rw [this]
          exact hg

theorem pathExt_dotdot : pathExt ['.', '.'] = ['.'] := by decide

/-- `path.Join(dir, sub)` appends one element to a cleaned sub-path. -/
theorem pathJoin_render (d : List Str) (g : Str) (hd : ∀ x ∈ d, Good x) (hg : Good g) :
    pathJoin [render true d, g] = render true (d ++ [g]) := by
  have hne : render true d ≠ [] := by simp [render]
  have e1 : pathJoin [render true d, g] = pathClean (render true d ++ '/' :: g) := by
    simp [pathJoin, hne, intercalate_cons_cons, intercalate_single]
  rw [e1]
  have hn : Norm true (d ++ [g]) := norm_of_good true (fun x hx => by
    rcases List.mem_append.mp hx with h | h
    · exact hd x h
    · have : x = g := by simpa using h
      rw [this]; exact hg)
  by_cases hdn : d = []
  · subst hdn
    have e2 : render true [] ++ '/' :: g = render true [[], g] := by
      simp [render, intercalate_cons_cons, intercalate_single, intercalate_nil']
    rw [e2, pathClean_eq, isRooted_render true _ (by simp),
      cleanStack_render true _ (by simp) (by
        intro e he
        simp at he
        rcases he with h | h
        · simp [h]
        · rw [h]; exact hg.2.2.2) (by simp)]
    simp [stackElem_skip, stackElem_good _ _ _ _ hg, cleanOut, dots, render_single]
  · rw [← render_concat _ _ _ hdn, ← cleanOutL_snoc true d g hg.1]
    exact pathClean_render hn

theorem render_snoc_ne {rooted : Bool} {init : List Str} {g : Str}
    (h : Norm rooted (init ++ [g])) :
    render rooted (init ++ [g]) ≠ [] ∧ render rooted (init ++ [g]) ≠ ['.'] ∧
      render rooted (init ++ [g]) ≠ ['/'] := by
  obtain ⟨h1, h2, h3⟩ := h.elem g (by simp)
  have hs := pathSplit_render_snoc rooted init g h2
  refine ⟨render_snoc_ne_nil _ _ _ h1, ?_, ?_⟩
  · intro hq
    rw [hq] at hs
    have : (pathSplit ['.']).2 = g := by rw [hs]
    exact h3 this.symm
  · intro hq
    rw [hq] at hs
    have : (pathSplit ['/']).2 = g := by rw [hs]
    exact h1 this.symm

/-- The remote boundary search, on any path whose cleaned form has the
elements `st`, with more fuel than elements. -/
theorem findRemoteGitR_spec (rooted : Bool) (st : List Str) (h : Norm rooted st) :
    ∀ (fuel : Nat) (x : Str), st.length < fuel → pathClean x = cleanOutL rooted st →
      findRemoteGitR fuel x = some (remoteSpec rooted st) := by
  induction st using List.reverseRecOn with
  | nil =>
    intro fuel x hf hx
    obtain ⟨f, rfl⟩ : ∃ f, fuel = f + 1 := ⟨fuel - 1, by simp at hf; omega⟩
    simp only [findRemoteGitR, hx, cleanOutL_nil]
    cases rooted <;> simp [remoteSpec, splitAtGit]
  | append_singleton init g ih =>
    intro fuel x hf hx
    obtain ⟨f, rfl⟩ : ∃ f, fuel = f + 1 := ⟨fuel - 1, by omega⟩
    have hf' : init.length < f := by simp at hf; omega
    have hel := h.elem g (by simp)
    have hq : pathClean x = render rooted (init ++ [g]) := by
      rw [hx, cleanOutL_snoc _ _ _ hel.1]
    obtain ⟨hn1, hn2, hn3⟩ := render_snoc_ne h
    have hext := pathExt_render_snoc rooted init g hel.2.1
    have hsplit := pathSplit_render_snoc rooted init g hel.2.1
    have hparent : pathClean (if init = [] then render rooted [] else render rooted init ++ ['/'])
        = cleanOutL rooted init := by
      by_cases hi : init = []
      · subst hi
        rw [if_pos rfl]
        cases rooted <;> decide
      · rw [if_neg hi]
        exact pathClean_render_slash h.init hi
    have hrec := ih h.init f _ hf' hparent
    simp only [findRemoteGitR, hq, hext, hsplit, hrec]
    rw [if_neg (by simp [hn1, hn2, hn3])]
    simp only [remoteSpec, List.reverse_append, List.reverse_cons, List.reverse_nil,
      List.nil_append, List.singleton_append, splitAtGit]
    by_cases hg : pathExt g = ".git".toList
    · simp [hg, render_nil]
    · rw [if_neg hg, if_neg hg]
      cases hr : splitAtGit init.reverse with
      | none => rfl
      | some v =>
        obtain ⟨r, d⟩ := v
        obtain ⟨h1, ⟨y, r', hy, hye⟩, h3⟩ := splitAtGit_eq_some hr
        have hinit : init = r'.reverse ++ y :: d := by
          have := congrArg List.reverse h1
          simpa [hy] using this
        have hyne : y ≠ ['.', '.'] := by
          intro hyy
          rw [hyy, pathExt_dotdot] at hye
          revert hye
          decide
        have hgood : ∀ z ∈ y :: (d ++ [g]), Good z := by
          have hnorm : Norm rooted (r'.reverse ++ y :: (d ++ [g])) := by
            have : r'.reverse ++ y :: (d ++ [g]) = init ++ [g] := by rw [hinit]; simp
            rw [this]
            exact h
          exact hnorm.good_after hyne
        have hjoin := pathJoin_render d g (fun z hz => hgood z (by simp [hz]))
          (hgood g (by simp))
        simp [hjoin]

theorem length_splitOn_le (t : Str) : (t.splitOn '/').length ≤ t.length + 1 := by
  induction t with
  | nil => simp
  | cons c cs ih =>
    rw [List.splitOn, List.splitOnP_cons, ← List.splitOn]
    split
    · simp only [List.length_cons]; omega
    · rw [List.length_modifyHead]
      simp only [List.length_cons]; omega

theorem stackElem_size (rooted : Bool) (s : Nat × List Str) (e : Str) :
    (stackElem rooted s e).1 + (stackElem rooted s e).2.length ≤ s.1 + s.2.length + 1 := by
  unfold stackElem
  split
  · omega
  · split
    · split
      · simp only [List.length_dropLast]; omega
      · split
        · omega
        · simp only; omega
    · simp only [List.length_append, List.length_singleton]; omega

theorem foldl_stackElem_size (rooted : Bool) (es : List Str) (s : Nat × List Str) :
    (es.foldl (stackElem rooted) s).1 + (es.foldl (stackElem rooted) s).2.length
      ≤ s.1 + s.2.length + es.length := by
  induction es generalizing s with
  | nil => simp
  | cons e es ih =>
    simp only [List.foldl_cons, List.length_cons]
    have h1 := ih (stackElem rooted s e)
    have h2 := stackElem_size rooted s e
    omega

/-- A cleaned path has no more elements than the input has characters, plus one. -/
theorem stackOf_length_le (t : Str) : (stackOf t).length ≤ t.length + 1 := by
  have h1 := foldl_stackElem_size (isRooted t) (t.splitOn '/') (0, [])
  have h2 := length_splitOn_le t
  simp only [stackOf, List.length_append, dots, List.length_replicate]
  simp only [List.length_nil, Nat.add_zero, Nat.zero_add] at h1
  unfold cleanStack
  omega

/-- The remote boundary search returns on every input, given fuel beyond the
length of the input. -/
theorem findRemoteGitR_eq (t : Str) (fuel : Nat) (hf : t.length + 1 < fuel) :
    findRemoteGitR fuel t = some (remoteSpec (isRooted t) (stackOf t)) :=
  findRemoteGitR_spec _ _ (norm_stackOf t) fuel t
    (lt_of_le_of_lt (stackOf_length_le t) hf) (pathClean_eq_stackOf t)

theorem findRemoteGit_eq (t : Str) (fuel : Nat) (hf : t.length + 1 < fuel) :
    findRemoteGit fuel t = some (.ok
      (match remoteSpec (isRooted t) (stackOf t) with
       | .error _ => (t, ['/'])
       | .ok v => v)) := by
  unfold findRemoteGit
  rw [findRemoteGitR_eq t fuel hf]
  unfold remoteSpec
  cases splitAtGit (stackOf t).reverse with
  | none => simp
  | some v => rfl

/-! ## Lemmas: `findLocalGit` -/

theorem subPath_concat (ss : List Str) (g : Str) : subPath (ss ++ [g]) = subPath ss ++ '/' :: g := by
  simp [subPath]

theorem render_append_subPath (rooted : Bool) (st ss : List Str) (hst : st ≠ []) :
    render rooted (st ++ ss) = render rooted st ++ subPath ss := by
  induction ss using List.reverseRecOn with
  | nil => simp [subPath]
  | append_singleton ss g ih =>
    rw [← List.append_assoc, render_concat _ _ _ (by simp [hst]), ih, subPath_concat]
    simp

theorem render_true_subPath (ss : List Str) (h : ss ≠ []) : render true ss = subPath ss := by
  obtain ⟨a, t, rfl⟩ := List.exists_cons_of_ne_nil h
  have := render_append_subPath true [a] t (by simp)
  simp only [List.singleton_append] at this
  rw [this, render_single]
  simp [subPath]

theorem good_dotgit : Good ".git".toList := by
  refine ⟨by decide, by decide, by decide, by decide⟩

/-- The probed path `filepath.Join(target, ".git")` for a cleaned absolute
target other than the root. -/
theorem pathJoin_dotgit (st : List Str) (hst : st ≠ []) (hg : ∀ g ∈ st, Good g) :
    pathJoin [render true st, ".git".toList] = render true st ++ "/.git".toList := by
  rw [pathJoin_render st _ hg good_dotgit, render_concat _ _ _ hst]
  rfl

/-- A cleaned absolute path is a slash followed by copied elements. -/
theorem clean_abs_structure (R : Str) (hclean : pathClean R = R) (habs : R.head? = some '/') :
    ∃ rs : List Str, (∀ g ∈ rs, Good g) ∧ R = render true rs := by
  have hr : isRooted R = true := by simp [isRooted, habs]
  have h1 := pathClean_eq_stackOf R
  rw [hclean, hr] at h1
  obtain ⟨m, goods, hst, hm, hg⟩ := norm_stackOf R
  rw [hr] at hm
  have hm0 := hm rfl
  subst hm0
  refine ⟨goods, hg, ?_⟩
  rw [h1, hst]
  simp [cleanOutL, dots, render]

/-- The local boundary search walks up from `rs ++ ss` to `rs` when `rs` is a
repository root (by extension or by probe) and nothing below it is. -/
theorem findLocalGit_walk (osStat : Str → Except GoError Unit) (rs ss : List Str)
    (hrs : ∀ g ∈ rs, Good g) (hss : ∀ g ∈ ss, Good g)
    (hroot : pathExt (render true rs) = ".git".toList ∨
      osStat (pathJoin [render true rs, ".git".toList]) = .ok ())
    (hext : ∀ s ∈ ss, pathExt s ≠ ".git".toList)
    (hprobe : ∀ pre, pre <+: ss → pre ≠ [] →
      ∃ e, osStat (pathJoin [render true (rs ++ pre), ".git".toList]) = .error e) :
    ∀ (fuel : Nat) (x : Str), ss.length < fuel → pathClean x = render true (rs ++ ss) →
      findLocalGit osStat fuel x = some (.ok (render true rs, render true ss)) := by
  induction ss using List.reverseRecOn with
  | nil =>
    intro fuel x hf hx
    obtain ⟨f, rfl⟩ : ∃ f, fuel = f + 1 := ⟨fuel - 1, by simp at hf; omega⟩
    rw [List.append_nil] at hx
    have hne : render true rs ≠ [] := by simp [render]
    simp only [findLocalGit, hx, if_neg hne, render_nil, if_true]
    rcases hroot with h | h
    · rw [if_pos h]
    · split
      · rfl
      · rw [h]
  | append_singleton init g ih =>
    intro fuel x hf hx
    obtain ⟨f, rfl⟩ : ∃ f, fuel = f + 1 := ⟨fuel - 1, by omega⟩
    have hf' : init.length < f := by simp at hf; omega
    have hg : Good g := hss g (by simp)
    have hinit : ∀ z ∈ init, Good z := fun z hz => hss z (by simp [hz])
    have hall : ∀ z ∈ rs ++ init, Good z := by
      intro z hz
      rcases List.mem_append.mp hz with h | h
      · exact hrs z h
      · exact hinit z h
    have hq : pathClean x = render true ((rs ++ init) ++ [g]) := by
      rw [hx, List.append_assoc]
    have hne : render true ((rs ++ init) ++ [g]) ≠ [] := by simp [render]
    have hext' := pathExt_render_snoc true (rs ++ init) g hg.2.2.2
    have hsplit := pathSplit_render_snoc true (rs ++ init) g hg.2.2.2
    have hparent : pathClean (if rs ++ init = [] then render true []
        else render true (rs ++ init) ++ ['/']) = render true (rs ++ init) := by
      by_cases hi : rs ++ init = []
      · rw [if_pos hi, hi]
        decide
      · rw [if_neg hi, pathClean_render_slash (norm_of_good true hall) hi]
        simp [cleanOutL, render]
    have hrec := ih hinit (fun s hs => hext s (by simp [hs]))
      (fun pre hpre hne => hprobe pre (hpre.trans (List.prefix_append _ _)) hne)
      f _ hf' hparent
    obtain ⟨e, he⟩ := hprobe (init ++ [g]) (List.prefix_refl _) (by simp)
    rw [← List.append_assoc] at he
    simp only [findLocalGit, hq, if_neg hne, hext', if_neg (hext g (by simp)), he, hsplit, hrec]
    rw [pathJoin_render init g hinit hg]

theorem cleanOutL_ne_nil (rooted : Bool) (st : List Str) : cleanOutL rooted st ≠ [] := by
  unfold cleanOutL
  split
  · simp
  · assumption

/-- When the probe never succeeds and no element of the cleaned path has the
extension `.git`, the local boundary search uses up any amount of fuel: after
the last element is removed the path is `/` or `.`, never the empty string
that the base case tests for, and the search goes on from there unchanged. -/
theorem findLocalGit_diverges (osStat : Str → Except GoError Unit)
    (hstat : ∀ p, ∃ e, osStat p = .error e) :
    ∀ (fuel : Nat) (rooted : Bool) (st : List Str) (x : Str), Norm rooted st →
      pathClean x = cleanOutL rooted st → (∀ g ∈ st, pathExt g ≠ ".git".toList) →
      findLocalGit osStat fuel x = none := by
  intro fuel
  induction fuel with
  | zero => intro rooted st x _ _ _; rfl
  | succ f ih =>
    intro rooted st x hn hx hext
    obtain ⟨e, he⟩ := hstat (pathJoin [cleanOutL rooted st, ".git".toList])
    rcases List.eq_nil_or_concat st with hst | ⟨init, g, hc⟩
    · subst hst
      have hrec : findLocalGit osStat f (pathSplit (cleanOutL rooted [])).1 = none := by
        apply ih rooted [] _ (norm_nil rooted)
        · cases rooted <;> decide
        · simp
      have hx2 : pathExt (cleanOutL rooted []) ≠ ".git".toList := by
        cases rooted <;> decide
      simp only [findLocalGit, hx, if_neg (cleanOutL_ne_nil _ _), if_neg hx2, he, hrec]
    · rw [List.concat_eq_append] at hc
      subst hc
      have hel := hn.elem g (by simp)
      have hq : cleanOutL rooted (init ++ [g]) = render rooted (init ++ [g]) :=
        cleanOutL_snoc _ _ _ hel.1
      have hext' := pathExt_render_snoc rooted init g hel.2.1
      have hsplit := pathSplit_render_snoc rooted init g hel.2.1
      have hparent : pathClean (if init = [] then render rooted []
          else render rooted init ++ ['/']) = cleanOutL rooted init := by
        by_cases hi : init = []
        · subst hi
          rw [if_pos rfl]
          cases rooted <;> decide
        · rw [if_neg hi]
          exact pathClean_render_slash hn.init hi
      have hrec := ih rooted init _ hn.init hparent (fun z hz => hext z (by simp [hz]))
      have hx2 : pathExt (cleanOutL rooted (init ++ [g])) ≠ ".git".toList := by
        rw [hq, hext']
        exact hext g (by simp)
      rw [hq] at he hx hx2
      simp only [findLocalGit, hx, if_neg (render_snoc_ne_nil _ _ _ hel.1), if_neg hx2, he,
        hsplit, hrec]

/-! ## Lemmas: `Parse` -/

theorem findRemoteGit_result (t : Str) (fuel : Nat) (hf : t.length + 1 < fuel) :
    findRemoteGit fuel t = some (.ok (remoteResult t)) :=
  findRemoteGit_eq t fuel hf

theorem parseCommit_of_not_mem {s : Str} (h : '@' ∉ s) : parseCommit s = (s, "HEAD".toList) := by
  unfold parseCommit
  rw [lastIndexByte_eq_none.mpr h]

theorem parseCommit_of_mem {s : Str} (h : '@' ∈ s) :
    s = (parseCommit s).1 ++ '@' :: (parseCommit s).2 ∧ '@' ∉ (parseCommit s).2 := by
  unfold parseCommit
  cases hi : lastIndexByte s '@' with
  | none => exact absurd h (lastIndexByte_eq_none.mp hi)
  | some i => exact lastIndexByte_eq_some hi

theorem parseCommit_append (a b : Str) (hb : '@' ∉ b) : parseCommit (a ++ '@' :: b) = (a, b) := by
  unfold parseCommit
  rw [lastIndexByte_append hb]
  have e : a ++ '@' :: b = (a ++ ['@']) ++ b := by simp
  have hl : (a ++ ['@']).length = a.length + 1 := by simp
  simp only
  rw [e, List.drop_left' hl, List.append_assoc, List.take_left' rfl]

theorem parseCommit_length_le (s : Str) : (parseCommit s).1.length ≤ s.length := by
  by_cases h : '@' ∈ s
  · have := congrArg List.length (parseCommit_of_mem h).1
    simp at this
    omega
  · rw [parseCommit_of_not_mem h]

/-- The remote branches of `Parse` always produce a descriptor. -/
theorem parseRemote_eq (fuel : Nat) (m : Str × Str × Str) (hf : m.2.2.length + 1 < fuel) :
    parseRemote fuel m = some (.ok
      { Remote := m.1 ++ (remoteResult (parseCommit m.2.2).1).1
        Host := m.2.1
        Owner := (parseOwnerName (remoteResult (parseCommit m.2.2).1).1).1
        Name := (parseOwnerName (remoteResult (parseCommit m.2.2).1).1).2
        Commit := (parseCommit m.2.2).2
        Path := (remoteResult (parseCommit m.2.2).1).2 }) := by
  have hl := parseCommit_length_le m.2.2
  unfold parseRemote
  simp only
  rw [findRemoteGit_result _ fuel (by omega)]

theorem httpRe_length {s : Str} {m : Str × Str × Str} (h : httpRe s = some m) :
    m.2.2.length ≤ s.length ∧ ':' ∈ s ∧ ∀ c ∈ m.2.2, c ∈ s := by
  obtain ⟨scheme, host, port, _, _, _, _, _, h1, _, h2⟩ := httpRe_eq_some h
  refine ⟨?_, ?_, ?_⟩
  · have := congrArg List.length h2
    simp at this
    omega
  · rw [h2, h1]
    simp
  · intro c hc
    rw [h2]
    exact List.mem_append_right _ hc

theorem sshRe_length {s : Str} {m : Str × Str × Str} (h : sshRe s = some m) :
    m.2.2.length ≤ s.length ∧ ':' ∈ s ∧ ∀ c ∈ m.2.2, c ∈ s := by
  obtain ⟨user, host, _, _, _, _, h1, _, h2⟩ := sshRe_eq_some h
  refine ⟨?_, ?_, ?_⟩
  · have := congrArg List.length h2
    simp at this
    omega
  · rw [h2, h1]
    simp
  · intro c hc
    rw [h2]
    exact List.mem_append_right _ hc

/-- The groups `Parse` works on for a target that is not local. -/
theorem parse_remote_cases (env : Env) (fuel : Nat) (target : Str)
    (hloc : isLocal target = false) :
    (∃ m, (httpRe target = some m ∨ (httpRe target = none ∧ sshRe target = some m)) ∧
        Parse env fuel target = parseRemote fuel m) ∨
      (httpRe target = none ∧ sshRe target = none ∧
        Parse env fuel target = some (.error .ErrInvalidTarget)) := by
  unfold Parse
  rw [hloc]
  simp only [Bool.false_eq_true, if_false]
  cases hh : httpRe target with
  | some m => exact Or.inl ⟨m, Or.inl rfl, rfl⟩
  | none =>
    cases hs : sshRe target with
    | some m => exact Or.inl ⟨m, Or.inr ⟨rfl, rfl⟩, rfl⟩
    | none => exact Or.inr ⟨rfl, rfl, rfl⟩

theorem matched_length {target : Str} {m : Str × Str × Str}
    (h : httpRe target = some m ∨ (httpRe target = none ∧ sshRe target = some m)) :
    m.2.2.length ≤ target.length ∧ ':' ∈ target ∧ ∀ c ∈ m.2.2, c ∈ target := by
  rcases h with h | ⟨_, h⟩
  · exact httpRe_length h
  · exact sshRe_length h

/-- What a successful local parse is made of. -/
theorem parse_local_ok {env : Env} {fuel : Nat} {target : Str} {url : URL}
    (hloc : isLocal target = true) (hp : Parse env fuel target = some (.ok url)) :
    ∃ remote path host owner,
      findLocalGit env.osStat fuel (parseCommit target).1 = some (.ok (remote, path)) ∧
      env.osHostname = .ok host ∧ env.userCurrent = .ok owner ∧
      url = { Remote := remote, Host := host, Owner := owner.Name, Name := parseName remote,
              Commit := (parseCommit target).2, Path := path } := by
  unfold Parse at hp
  rw [hloc] at hp
  simp only [if_true] at hp
  cases hf : findLocalGit env.osStat fuel (parseCommit target).1 with
  | none => rw [hf] at hp; cases hp
  | some r =>
    rw [hf] at hp
    cases r with
    | error e => simp at hp
    | ok v =>
      obtain ⟨remote, path⟩ := v
      simp only at hp
      cases hh : env.osHostname with
      | error e => rw [hh] at hp; simp at hp
      | ok host =>
        rw [hh] at hp
        simp only at hp
        cases hu : env.userCurrent with
        | error e => rw [hu] at hp; simp at hp
        | ok owner =>
          rw [hu] at hp
          simp only [Option.some.injEq, Except.ok.injEq] at hp
          exact ⟨remote, path, host, owner, rfl, rfl, rfl, hp.symm⟩

/-- The commit of a successful remote parse comes from the remainder group. -/
theorem parseRemote_commit {fuel : Nat} {m : Str × Str × Str} {url : URL}
    (hp : parseRemote fuel m = some (.ok url)) : url.Commit = (parseCommit m.2.2).2 := by
  unfold parseRemote at hp
  simp only at hp
  cases hf : findRemoteGit fuel (parseCommit m.2.2).1 with
  | none => rw [hf] at hp; cases hp
  | some r =>
    rw [hf] at hp
    cases r with
    | error e => simp at hp
    | ok v =>
      obtain ⟨remote, path⟩ := v
      simp only [Option.some.injEq, Except.ok.injEq] at hp
      rw [← hp]

theorem afterAt_of_count_one {s a b : Str} (hone : s.count '@' = 1) (hs : s = a ++ '@' :: b) :
    afterAt s = b ∧ '@' ∉ a ∧ '@' ∉ b := by
  subst hs
  have hc : List.count '@' a + (List.count '@' b + 1) = 1 := by
    simpa [List.count_append, List.count_cons] using hone
  have ha : '@' ∉ a := List.count_eq_zero.mp (by omega)
  have hb : '@' ∉ b := List.count_eq_zero.mp (by omega)
  refine ⟨?_, ha, hb⟩
  unfold afterAt
  have : ∀ (a : Str), '@' ∉ a → (a ++ '@' :: b).dropWhile (· ≠ '@') = '@' :: b := by
    intro a ha
    induction a with
    | nil => simp [List.dropWhile]
    | cons x xs ih =>
      have hx : x ≠ '@' := fun h => ha (by simp [h])
      have hxs : '@' ∉ xs := fun h => ha (by simp [h])
      rw [List.cons_append, List.dropWhile_cons_of_pos (by simpa using hx)]
      exact ih hxs
  rw [this a ha]
  rfl

/-! ## The claims -/

/-- C7. For every string `s` that contains at least one `@`, `parseCommit s`
is a pair `(lhs, commit)` with `lhs ++ "@" ++ commit = s` and no `@` in
`commit`: the split is at the last `@`, however many there are. -/
theorem parseCommit_splits_at_last_at (s : Str) (h : '@' ∈ s) :
    (parseCommit s).1 ++ "@".toList ++ (parseCommit s).2 = s ∧ '@' ∉ (parseCommit s).2 := by
  obtain ⟨h1, h2⟩ := parseCommit_of_mem h
  refine ⟨?_, h2⟩
  conv => rhs; rw [h1]
  simp

theorem parseCommit_splits_at_last_at_witness :
    '@' ∈ "user@host:repo.git@v1".toList ∧
      ((parseCommit "user@host:repo.git@v1".toList).1 ++ "@".toList
          ++ (parseCommit "user@host:repo.git@v1".toList).2 = "user@host:repo.git@v1".toList ∧
        '@' ∉ (parseCommit "user@host:repo.git@v1".toList).2) :=
  ⟨by decide, parseCommit_splits_at_last_at _ (by decide)⟩

/-- C8. For every target without `@` that `Parse` accepts (local, HTTP or
SSH) the descriptor has `Commit = "HEAD"`; and `parseCommit s = (s, "HEAD")`
for every `s` without `@`. -/
theorem commit_defaults_to_head :
    (∀ (env : Env) (fuel : Nat) (target : Str) (url : URL), '@' ∉ target →
        Parse env fuel target = some (.ok url) → url.Commit = "HEAD".toList) ∧
      (∀ s : Str, '@' ∉ s → parseCommit s = (s, "HEAD".toList)) := by
  refine ⟨?_, fun s hs => parseCommit_of_not_mem hs⟩
  intro env fuel target url hat hp
  cases hloc : isLocal target with
  | true =>
    obtain ⟨_, _, _, _, _, _, _, hurl⟩ := parse_local_ok hloc hp
    rw [hurl, parseCommit_of_not_mem hat]
  | false =>
    rcases parse_remote_cases env fuel target hloc with ⟨m, hm, hpm⟩ | ⟨_, _, herr⟩
    · rw [hpm] at hp
      rw [parseRemote_commit hp]
      have hat' : '@' ∉ m.2.2 := fun h => hat ((matched_length hm).2.2 _ h)
      rw [parseCommit_of_not_mem hat']
    · rw [herr] at hp
      simp at hp

theorem commit_defaults_to_head_witness :
    ('@' ∉ "https://github.com/abcdefg/repo.git/path/to/dir".toList ∧
      Parse testEnv 50 "https://github.com/abcdefg/repo.git/path/to/dir".toList
        = some (.ok { Remote := "https://github.com/abcdefg/repo.git".toList,
                      Host := "github.com".toList, Owner := "abcdefg".toList,
                      Name := "repo".toList, Commit := "HEAD".toList,
                      Path := "/path/to/dir".toList })) ∧
      ({ Remote := "https://github.com/abcdefg/repo.git".toList,
         Host := "github.com".toList, Owner := "abcdefg".toList,
         Name := "repo".toList, Commit := "HEAD".toList,
         Path := "/path/to/dir".toList } : URL).Commit = "HEAD".toList ∧
      parseCommit "/home/abcdefg/documents/repo".toList
        = ("/home/abcdefg/documents/repo".toList, "HEAD".toList) :=
  ⟨⟨by decide, rfl⟩,
    commit_defaults_to_head.1 testEnv 50 "https://github.com/abcdefg/repo.git/path/to/dir".toList
      _ (by decide) rfl,
    commit_defaults_to_head.2 _ (by decide)⟩

/-- C9, as the claim states it, fails: `git@github.com:abcdefg/repo.git` holds
exactly one `@` and is accepted, yet its commit is `HEAD`, not the text after
the `@`. -/
theorem commit_after_single_at_counterexample :
    "git@github.com:abcdefg/repo.git".toList.count '@' = 1 ∧
      ∃ url, Parse testEnv 40 "git@github.com:abcdefg/repo.git".toList = some (.ok url) ∧
        url.Commit = "HEAD".toList ∧
        url.Commit ≠ afterAt "git@github.com:abcdefg/repo.git".toList :=
  ⟨by decide, _, rfl, rfl, by decide⟩

/-- C9, amended. For every target that contains exactly one `@` and that
`Parse` accepts: if the target is local, or it is remote and the `@` lies in
the remainder that follows the matched `scheme://host[:port]` or `[user@]host:`
prefix, the commit is the text after that `@`; if the `@` lies in the matched
prefix, the commit is `HEAD`. -/
theorem commit_after_single_at (env : Env) (fuel : Nat) (target : Str) (url : URL)
    (hone : target.count '@' = 1) (hp : Parse env fuel target = some (.ok url)) :
    (isLocal target = true → url.Commit = afterAt target) ∧
      (∀ m, isLocal target = false →
        (httpRe target = some m ∨ (httpRe target = none ∧ sshRe target = some m)) →
        ('@' ∈ m.2.2 → url.Commit = afterAt target) ∧
          ('@' ∉ m.2.2 → url.Commit = "HEAD".toList)) := by
  constructor
  · intro hloc
    obtain ⟨_, _, _, _, _, _, _, hurl⟩ := parse_local_ok hloc hp
    have hmem : '@' ∈ target := List.count_pos_iff.mp (by omega)
    have hsplit := (parseCommit_of_mem hmem).1
    rw [hurl, (afterAt_of_count_one hone hsplit).1]
  · intro m hloc hm
    have hpm : Parse env fuel target = parseRemote fuel m := by
      unfold Parse
      rw [hloc]
      simp only [Bool.false_eq_true, if_false]
      rcases hm with h | ⟨h1, h2⟩
      · rw [h]
      · rw [h1, h2]
    rw [hpm] at hp
    have hcommit := parseRemote_commit hp
    have htarget : target = m.1 ++ m.2.2 := by
      rcases hm with h | ⟨_, h⟩
      · obtain ⟨_, _, _, _, _, _, _, _, _, _, h2⟩ := httpRe_eq_some h
        exact h2
      · obtain ⟨_, _, _, _, _, _, _, _, h2⟩ := sshRe_eq_some h
        exact h2
    constructor
    · intro hmem
      have hsplit := (parseCommit_of_mem hmem).1
      have hs : target = (m.1 ++ (parseCommit m.2.2).1) ++ '@' :: (parseCommit m.2.2).2 := by
        conv => lhs; rw [htarget, hsplit]
        simp
      rw [hcommit, (afterAt_of_count_one hone hs).1]
    · intro hnot
      rw [hcommit, parseCommit_of_not_mem hnot]

theorem commit_after_single_at_witness :
    ("https://github.com/abcdefg/repo.git@1a2b3c5".toList.count '@' = 1 ∧
      Parse testEnv 50 "https://github.com/abcdefg/repo.git@1a2b3c5".toList
        = some (.ok { Remote := "https://github.com/abcdefg/repo.git".toList,
                      Host := "github.com".toList, Owner := "abcdefg".toList,
                      Name := "repo".toList, Commit := "1a2b3c5".toList,
                      Path := "/".toList })) ∧
      ((isLocal "https://github.com/abcdefg/repo.git@1a2b3c5".toList = true →
          "1a2b3c5".toList = afterAt "https://github.com/abcdefg/repo.git@1a2b3c5".toList) ∧
        (∀ m, isLocal "https://github.com/abcdefg/repo.git@1a2b3c5".toList = false →
          (httpRe "https://github.com/abcdefg/repo.git@1a2b3c5".toList = some m ∨
            (httpRe "https://github.com/abcdefg/repo.git@1a2b3c5".toList = none ∧
              sshRe "https://github.com/abcdefg/repo.git@1a2b3c5".toList = some m)) →
          ('@' ∈ m.2.2 →
              "1a2b3c5".toList = afterAt "https://github.com/abcdefg/repo.git@1a2b3c5".toList) ∧
            ('@' ∉ m.2.2 → "1a2b3c5".toList = "HEAD".toList))) :=
  ⟨⟨by decide, rfl⟩,
    commit_after_single_at testEnv 50 "https://github.com/abcdefg/repo.git@1a2b3c5".toList
      { Remote := "https://github.com/abcdefg/repo.git".toList,
        Host := "github.com".toList, Owner := "abcdefg".toList,
        Name := "repo".toList, Commit := "1a2b3c5".toList,
        Path := "/".toList } (by decide) rfl⟩

/-- C10. For every target that is not classified local, `Parse` returns (given
fuel beyond the length of the target), it fails if and only if the target
matches neither `httpRe` nor `sshRe`, and a failure is exactly
`ErrInvalidTarget`; in particular every non-local target without `:` (the
empty string among them) is rejected with `ErrInvalidTarget`, and no
non-local target that matches a pattern is rejected. -/
theorem parse_remote_fails_iff_no_match (env : Env) (fuel : Nat) (target : Str)
    (hloc : isLocal target = false) (hf : target.length + 1 < fuel) :
    (∃ r, Parse env fuel target = some r) ∧
      ((∃ e, Parse env fuel target = some (.error e)) ↔
        (httpRe target = none ∧ sshRe target = none)) ∧
      (∀ e, Parse env fuel target = some (.error e) → e = .ErrInvalidTarget) ∧
      (':' ∉ target → Parse env fuel target = some (.error .ErrInvalidTarget)) := by
  rcases parse_remote_cases env fuel target hloc with ⟨m, hm, hpm⟩ | ⟨hh, hs, herr⟩
  · have hlen := matched_length hm
    have hok := parseRemote_eq fuel m (by omega)
    rw [← hpm] at hok
    refine ⟨⟨_, hok⟩, ⟨?_, ?_⟩, ?_, ?_⟩
    · rintro ⟨e, he⟩
      rw [hok] at he
      simp at he
    · rintro ⟨h1, h2⟩
      rcases hm with h | ⟨_, h⟩
      · rw [h1] at h; cases h
      · rw [h2] at h; cases h
    · intro e he
      rw [hok] at he
      simp at he
    · intro hc
      exact absurd hlen.2.1 hc
  · refine ⟨⟨_, herr⟩, ⟨fun _ => ⟨hh, hs⟩, fun _ => ⟨_, herr⟩⟩, ?_, fun _ => herr⟩
    intro e he
    rw [herr] at he
    simp only [Option.some.injEq, Except.error.injEq] at he
    exact he.symm

theorem parse_remote_fails_iff_no_match_witness :
    (isLocal "github.com/owner/repo".toList = false ∧
      "github.com/owner/repo".toList.length + 1 < 30) ∧
      ((∃ r, Parse testEnv 30 "github.com/owner/repo".toList = some r) ∧
        ((∃ e, Parse testEnv 30 "github.com/owner/repo".toList = some (.error e)) ↔
          (httpRe "github.com/owner/repo".toList = none ∧
            sshRe "github.com/owner/repo".toList = none)) ∧
        (∀ e, Parse testEnv 30 "github.com/owner/repo".toList = some (.error e) →
          e = .ErrInvalidTarget) ∧
        (':' ∉ "github.com/owner/repo".toList →
          Parse testEnv 30 "github.com/owner/repo".toList = some (.error .ErrInvalidTarget))) :=
  ⟨⟨by decide, by decide⟩,
    parse_remote_fails_iff_no_match testEnv 30 "github.com/owner/repo".toList
      (by decide) (by decide)⟩

/-! ## Lemmas: the shapes of the claims -/

theorem extLoop_suffix (l acc : Str) : extLoop l acc <:+ l.reverse ++ acc := by
  induction l generalizing acc with
  | nil => exact List.nil_suffix
  | cons c rest ih =>
    simp only [extLoop]
    split
    · exact List.nil_suffix
    · split
      · simp only [List.reverse_cons, List.append_assoc, List.singleton_append]
        exact List.suffix_append _ _
      · have := ih (c :: acc)
        simpa using this

/-- The extension is a suffix of the path. -/
theorem pathExt_suffix (s : Str) : pathExt s <:+ s := by
  have := extLoop_suffix s.reverse []
  simpa [pathExt] using this

theorem pathExt_ne_git {s : Str} (h : ¬ (".git".toList <:+ s)) : pathExt s ≠ ".git".toList := by
  intro he
  exact h (he ▸ pathExt_suffix s)

theorem pathExt_append_git (n : Str) : pathExt (n ++ ".git".toList) = ".git".toList := by
  simp [pathExt, extLoop]

theorem trimSuffix_append (n suffix : Str) : trimSuffix (n ++ suffix) suffix = n := by
  simp [trimSuffix, List.isSuffixOf_iff_suffix]

theorem isSegment_good {s : Str} (h : IsSegment s) : Good s :=
  ⟨h.1, h.2.1, h.2.2.1, h.2.2.2.1⟩

theorem good_append_git {n : Str} (h : '/' ∉ n) : Good (n ++ ".git".toList) := by
  refine ⟨by simp, ?_, ?_, ?_⟩
  · intro he
    have := congrArg List.length he
    simp at this
  · intro he
    have := congrArg List.length he
    simp at this
  · intro hm
    rcases List.mem_append.mp hm with h1 | h1
    · exact h h1
    · revert h1; decide

theorem splitAtGit_walk (ss r : List Str) (x : Str) (hx : pathExt x = ".git".toList)
    (hss : ∀ s ∈ ss, pathExt s ≠ ".git".toList) :
    splitAtGit (ss.reverse ++ x :: r) = some (x :: r, ss) := by
  induction ss using List.reverseRecOn with
  | nil => simp [splitAtGit, hx]
  | append_singleton ss g ih =>
    have hg := hss g (by simp)
    have := ih (fun s hs => hss s (by simp [hs]))
    have e : (ss ++ [g]).reverse ++ x :: r = g :: (ss.reverse ++ x :: r) := by simp
    rw [e]
    simp only [splitAtGit]
    rw [if_neg hg, this]

theorem stackOf_render (rooted : Bool) (st : List Str) (hst : st ≠ [])
    (hg : ∀ g ∈ st, Good g) :
    isRooted (render rooted st) = rooted ∧ stackOf (render rooted st) = st := by
  have hn : Norm rooted st := norm_of_good rooted hg
  refine ⟨isRooted_render rooted st hn.head, ?_⟩
  unfold stackOf
  rw [cleanStack_render rooted st hst (fun e he => (hn.elem e he).2.1) hn.head]
  have := foldl_stackElem_normal rooted 0 st (fun _ => rfl) hg
  simp only [dots, List.replicate_zero, List.nil_append] at this ⊢
  rw [this]
  rfl

/-- The boundary found in a cleaned path `pre/x/s1/.../sk` whose element `x`
has the extension `.git` and whose later elements do not. -/
theorem remoteResult_git (rooted : Bool) (pre ss : List Str) (x : Str)
    (hpre : ∀ g ∈ pre, Good g) (hx : Good x) (hss : ∀ g ∈ ss, Good g)
    (hxe : pathExt x = ".git".toList) (hsse : ∀ s ∈ ss, pathExt s ≠ ".git".toList) :
    remoteResult (render rooted (pre ++ x :: ss)) = (render rooted (pre ++ [x]), render true ss) := by
  have hall : ∀ g ∈ pre ++ x :: ss, Good g := by
    intro g hg
    rcases List.mem_append.mp hg with h | h
    · exact hpre g h
    · rcases List.mem_cons.mp h with h | h
      · rw [h]; exact hx
      · exact hss g h
  obtain ⟨h1, h2⟩ := stackOf_render rooted (pre ++ x :: ss) (by simp) hall
  unfold remoteResult remoteSpec
  rw [h1, h2]
  have : (pre ++ x :: ss).reverse = ss.reverse ++ x :: pre.reverse := by simp
  rw [this, splitAtGit_walk ss pre.reverse x hxe hsse]
  simp

theorem pathBase_render_snoc (rooted : Bool) (init : List Str) (g : Str) (hne : g ≠ [])
    (hg : '/' ∉ g) : pathBase (render rooted (init ++ [g])) = g := by
  have hq := render_snoc_ne_nil rooted init g hne
  have hs := pathSplit_render_snoc rooted init g hg
  have hstrip : stripTrailingSlashes (render rooted (init ++ [g])) = render rooted (init ++ [g]) := by
    obtain ⟨b, y, hby⟩ := (List.eq_nil_or_concat g).resolve_left hne
    rw [List.concat_eq_append] at hby
    have hy : y ≠ '/' := fun h => hg (by rw [hby]; simp [h])
    have : ∃ a, render rooted (init ++ [g]) = a ++ [y] := by
      by_cases hi : init = []
      · exact ⟨(if rooted then ['/'] else []) ++ b, by rw [hi, List.nil_append, render_single, hby]; simp⟩
      · exact ⟨render rooted init ++ '/' :: b, by rw [render_concat _ _ _ hi, hby]; simp⟩
    obtain ⟨a, ha⟩ := this
    rw [ha]
    simp [stripTrailingSlashes, List.dropWhile, hy]
  unfold pathBase
  rw [if_neg hq]
  simp only [hstrip]
  unfold pathSplit at hs
  cases hl : lastIndexByte (render rooted (init ++ [g])) '/' with
  | none =>
    rw [hl] at hs
    simp only [Prod.mk.injEq] at hs
    simp only [hs.2, if_neg hne]
  | some i =>
    rw [hl] at hs
    simp only [Prod.mk.injEq] at hs
    simp only [hs.2, if_neg hne]

/-- Owner and name of a cleaned repository location with at least two elements. -/
theorem parseOwnerName_render (rooted : Bool) (pre : List Str) (o x : Str)
    (hpre : ∀ g ∈ pre, Good g) (ho : Good o) (hx : Good x) :
    parseOwnerName (render rooted (pre ++ [o] ++ [x])) = (o, trimSuffix x (pathExt x)) := by
  have hn : Norm rooted (pre ++ [o]) := norm_of_good rooted (fun g hg => by
    rcases List.mem_append.mp hg with h | h
    · exact hpre g h
    · have : g = o := by simpa using h
      rw [this]; exact ho)
  have hs := pathSplit_render_snoc rooted (pre ++ [o]) x hx.2.2.2
  rw [if_neg (by simp)] at hs
  unfold parseOwnerName pathDir
  rw [hs, pathExt_render_snoc rooted _ x hx.2.2.2, pathBase_render_snoc rooted _ x hx.1 hx.2.2.2]
  simp only
  rw [pathClean_render_slash hn (by simp), cleanOutL_snoc _ _ _ ho.1,
    pathBase_render_snoc rooted pre o ho.1 ho.2.2.2]

theorem render_true_eq (ss : List Str) :
    render true ss = if ss = [] then ['/'] else subPath ss := by
  by_cases h : ss = []
  · subst h; simp [render_nil]
  · rw [if_neg h, render_true_subPath ss h]

theorem not_mem_subPath {c : Char} {ss : List Str} (hc : c ≠ '/') (h : ∀ s ∈ ss, c ∉ s) :
    c ∉ subPath ss := by
  induction ss with
  | nil => simp [subPath]
  | cons a t ih =>
    have h1 := h a (by simp)
    have h2 := ih (fun s hs => h s (by simp [hs]))
    simp only [subPath, List.map_cons, List.flatten_cons] at h2 ⊢
    simp [h1, h2, hc]

theorem isLocal_cons (c : Char) (s : Str) (h1 : c ≠ '/') (h2 : c ≠ '.') :
    isLocal (c :: s) = false := by
  simp [isLocal, hasPrefix, pathSeparator, filepathVolumeName, List.isPrefixOf, Ne.symm h1,
    Ne.symm h2]

theorem IsSubSegment.ext_ne {s : Str} (h : IsSubSegment s) : pathExt s ≠ ".git".toList :=
  pathExt_ne_git h.2

/-- The remote boundary search on `[/]O/N.git/s1/.../sk`, with owner and name. -/
theorem remote_repo_shape (rooted : Bool) (O N : Str) (ss : List Str)
    (hO : IsSegment O) (hN : IsSegment N) (hss : ∀ s ∈ ss, IsSubSegment s) :
    remoteResult (render rooted (O :: (N ++ ".git".toList) :: ss))
        = (render rooted [O, N ++ ".git".toList], render true ss) ∧
      parseOwnerName (render rooted [O, N ++ ".git".toList]) = (O, N) := by
  have hg : Good (N ++ ".git".toList) := good_append_git hN.2.2.2.1
  constructor
  · have := remoteResult_git rooted [O] ss (N ++ ".git".toList)
      (fun g hg => by
        have : g = O := by simpa using hg
        rw [this]; exact isSegment_good hO)
      hg (fun g hg => isSegment_good (hss g hg).1) (pathExt_append_git N)
      (fun s hs => (hss s hs).ext_ne)
    simpa using this
  · have := parseOwnerName_render rooted [] O (N ++ ".git".toList) (by simp) (isSegment_good hO) hg
    rw [pathExt_append_git, trimSuffix_append] at this
    simpa using this

theorem render_repo_true (O X : Str) (ss : List Str) :
    render true (O :: X :: ss) = '/' :: (O ++ '/' :: (X ++ subPath ss)) := by
  rw [render_true_subPath _ (by simp)]
  simp [subPath]

theorem render_repo_false (O X : Str) (ss : List Str) :
    render false (O :: X :: ss) = O ++ '/' :: (X ++ subPath ss) := by
  have := render_append_subPath false [O, X] ss (by simp)
  simp only [List.cons_append, List.nil_append] at this
  rw [this]
  simp [render, intercalate_cons_cons, intercalate_single]

theorem not_mem_repo {c : Char} {O N : Str} {ss : List Str} (hc : c ≠ '/')
    (hcg : c ∉ ".git".toList) (hO : c ∉ O) (hN : c ∉ N) (hss : ∀ s ∈ ss, c ∉ s) :
    c ∉ O ++ '/' :: (N ++ ".git".toList ++ subPath ss) := by
  have h3 := not_mem_subPath hc hss
  simp only [List.mem_append, List.mem_cons, not_or]
  exact ⟨hO, hc, ⟨hN, hcg⟩, h3⟩

/-- C1. For every host `H` (non-empty, no `:`, `/` or newline), optional
numeric port `P`, owner `O` and name `N` (segments), sub-path segments
`s1..sk` (segments not ending in `.git`) and commit `C` without `@` or
newline, `Parse "scheme://H[:P]/O/N.git/s1/.../sk@C"` with scheme `https` or
`http` returns (given fuel for the length of the target) the descriptor with
`Remote = "scheme://H[:P]/O/N.git"`, `Host = H`, `Owner = O`, `Name = N`,
`Path = "/s1/.../sk"` (`"/"` when `k = 0`) and `Commit = C`. -/
theorem parse_http_url (env : Env) (fuel : Nat) (scheme H O N C : Str) (P : Option Str)
    (ss : List Str)
    (hscheme : scheme = "http".toList ∨ scheme = "https".toList)
    (hH : H ≠ [] ∧ ':' ∉ H ∧ '/' ∉ H ∧ '\n' ∉ H)
    (hP : ∀ p ∈ P, p ≠ [] ∧ ∀ c ∈ p, c.isDigit = true)
    (hO : IsSegment O) (hN : IsSegment N) (hss : ∀ s ∈ ss, IsSubSegment s)
    (hC : '@' ∉ C ∧ '\n' ∉ C)
    (hfuel : (scheme ++ "://".toList ++ H ++ portText P ++ "/".toList ++ O ++ "/".toList ++ N
      ++ ".git".toList ++ subPath ss ++ "@".toList ++ C).length ≤ fuel) :
    Parse env fuel (scheme ++ "://".toList ++ H ++ portText P ++ "/".toList ++ O ++ "/".toList
        ++ N ++ ".git".toList ++ subPath ss ++ "@".toList ++ C)
      = some (.ok
          { Remote := scheme ++ "://".toList ++ H ++ portText P ++ "/".toList ++ O
              ++ "/".toList ++ N ++ ".git".toList
            Host := H
            Owner := O
            Name := N
            Commit := C
            Path := if ss = [] then "/".toList else subPath ss }) := by
  obtain ⟨hsh1, hsh2⟩ := remote_repo_shape true O N ss hO hN hss
  have hlhs := render_repo_true O (N ++ ".git".toList) ss
  have etarget : scheme ++ "://".toList ++ H ++ portText P ++ "/".toList ++ O ++ "/".toList
      ++ N ++ ".git".toList ++ subPath ss ++ "@".toList ++ C
      = scheme ++ "://".toList ++ H ++ portText P
        ++ (render true (O :: (N ++ ".git".toList) :: ss) ++ '@' :: C) := by
    rw [hlhs]
    simp
  have hnl : '\n' ∉ render true (O :: (N ++ ".git".toList) :: ss) ++ '@' :: C := by
    rw [hlhs]
    have := not_mem_repo (c := '\n') (by decide) (by decide) hO.2.2.2.2.2 hN.2.2.2.2.2
      (fun s hs => (hss s hs).1.2.2.2.2.2)
    simp only [List.mem_append, List.mem_cons, not_or] at this ⊢
    exact ⟨⟨by decide, this⟩, by decide, hC.2⟩
  have hport : portText P = [] ∨
      ∃ ds : Str, ds ≠ [] ∧ (∀ c ∈ ds, c.isDigit = true) ∧ portText P = ':' :: ds := by
    cases P with
    | none => exact Or.inl rfl
    | some p => exact Or.inr ⟨p, (hP p rfl).1, (hP p rfl).2, rfl⟩
  have hmatch := httpRe_match scheme H (portText P)
    (render true (O :: (N ++ ".git".toList) :: ss) ++ '@' :: C) hscheme hH.1
    (fun c hc => ⟨fun h => hH.2.1 (h ▸ hc), fun h => hH.2.2.1 (h ▸ hc)⟩) hport
    (by rw [hlhs]; simp) hnl
  have hloc : isLocal (scheme ++ "://".toList ++ H ++ portText P
      ++ (render true (O :: (N ++ ".git".toList) :: ss) ++ '@' :: C)) = false := by
    rcases hscheme with h | h <;> rw [h] <;> exact isLocal_cons _ _ (by decide) (by decide)
  have hlen : (render true (O :: (N ++ ".git".toList) :: ss) ++ '@' :: C).length + 1 < fuel := by
    have h2 : 4 ≤ scheme.length := by rcases hscheme with h | h <;> rw [h] <;> decide
    have h3 : ("://".toList).length = 3 := rfl
    rw [etarget] at hfuel
    simp only [List.length_append, List.length_cons] at hfuel ⊢
    omega
  rw [etarget]
  unfold Parse
  rw [hloc]
  simp only [Bool.false_eq_true, if_false]
  rw [hmatch]
  simp only
  rw [parseRemote_eq fuel _ hlen]
  simp only
  rw [parseCommit_append _ _ hC.1]
  simp only
  rw [hsh1]
  simp only
  rw [hsh2, render_true_eq ss]
  simp [render, intercalate_cons_cons, intercalate_single]

theorem parse_http_url_witness :
    Parse testEnv 60 ("http".toList ++ "://".toList ++ "example.org".toList
        ++ portText (some "8080".toList) ++ "/".toList ++ "abcdefg".toList ++ "/".toList
        ++ "repo".toList ++ ".git".toList ++ subPath ["path".toList, "to".toList]
        ++ "@".toList ++ "1a2b3c5".toList)
      = some (.ok
          { Remote := "http".toList ++ "://".toList ++ "example.org".toList
              ++ portText (some "8080".toList) ++ "/".toList ++ "abcdefg".toList
              ++ "/".toList ++ "repo".toList ++ ".git".toList
            Host := "example.org".toList
            Owner := "abcdefg".toList
            Name := "repo".toList
            Commit := "1a2b3c5".toList
            Path := if ["path".toList, "to".toList] = [] then "/".toList
              else subPath ["path".toList, "to".toList] }) :=
  parse_http_url testEnv 60 "http".toList "example.org".toList "abcdefg".toList "repo".toList
    "1a2b3c5".toList (some "8080".toList) ["path".toList, "to".toList]
    (by decide) (by decide) (by decide) (by decide) (by decide) (by decide) (by decide)
    (by decide)

/-- A string that starts with a colon-free user part and `@` does not match
`httpRe`. -/
theorem httpRe_user_at (U tail : Str) (hU : ':' ∉ U) : httpRe (U ++ '@' :: tail) = none := by
  cases h : httpRe (U ++ '@' :: tail) with
  | none => rfl
  | some m =>
    exfalso
    obtain ⟨scheme, host, port, hscheme, _, _, _, _, h1, _, h2⟩ := httpRe_eq_some h
    have hp : scheme ++ "://".toList <+: U ++ '@' :: tail := by
      rw [h2, h1]
      exact ⟨host ++ port ++ m.2.2, by simp⟩
    have hq : U ++ ['@'] <+: U ++ '@' :: tail := ⟨tail, by simp⟩
    have hcolon : ':' ∈ scheme ++ "://".toList := by simp
    have hat : '@' ∉ scheme ++ "://".toList := by
      rcases hscheme with h | h <;> rw [h] <;> decide
    rcases List.prefix_or_prefix_of_prefix hp hq with hA | hB
    · have := hA.subset hcolon
      simp at this
      exact hU this
    · exact hat (hB.subset (by simp))

/-- C2. For every user `U` (non-empty, no `@`, `/`, `:` or newline, not
starting with `.`), host `H` (non-empty, no `:` or newline), owner `O` and
name `N` (segments) and sub-path segments `s1..sk` (segments not ending in
`.git`), `Parse "U@H:O/N.git/s1/.../sk"` returns (given fuel for the length of
the target) the descriptor with `Remote = "U@H:O/N.git"`, `Host = H`,
`Owner = O`, `Name = N`, `Path = "/s1/.../sk"` (`"/"` when `k = 0`) and
`Commit = "HEAD"`; with `@C` appended, for a commit `C` without `@` or
newline, only `Commit` changes, to `C`. -/
theorem parse_ssh_url (env : Env) (fuel : Nat) (U H O N : Str) (ss : List Str)
    (commit : Option Str)
    (hU : U ≠ [] ∧ '@' ∉ U ∧ '/' ∉ U ∧ ':' ∉ U ∧ '\n' ∉ U ∧ U.head? ≠ some '.')
    (hH : H ≠ [] ∧ ':' ∉ H ∧ '\n' ∉ H)
    (hO : IsSegment O) (hN : IsSegment N) (hss : ∀ s ∈ ss, IsSubSegment s)
    (hC : ∀ C ∈ commit, '@' ∉ C ∧ '\n' ∉ C)
    (hfuel : (U ++ "@".toList ++ H ++ ":".toList ++ O ++ "/".toList ++ N ++ ".git".toList
      ++ subPath ss ++ commitText commit).length ≤ fuel) :
    Parse env fuel (U ++ "@".toList ++ H ++ ":".toList ++ O ++ "/".toList ++ N ++ ".git".toList
        ++ subPath ss ++ commitText commit)
      = some (.ok
          { Remote := U ++ "@".toList ++ H ++ ":".toList ++ O ++ "/".toList ++ N ++ ".git".toList
            Host := H
            Owner := O
            Name := N
            Commit := commit.getD "HEAD".toList
            Path := if ss = [] then "/".toList else subPath ss }) := by
  obtain ⟨hsh1, hsh2⟩ := remote_repo_shape false O N ss hO hN hss
  have hlhs := render_repo_false O (N ++ ".git".toList) ss
  have etarget : U ++ "@".toList ++ H ++ ":".toList ++ O ++ "/".toList ++ N ++ ".git".toList
      ++ subPath ss ++ commitText commit
      = U ++ '@' :: (H ++ ':' :: (render false (O :: (N ++ ".git".toList) :: ss)
          ++ commitText commit)) := by
    rw [hlhs]
    simp
  have hnl0 := not_mem_repo (c := '\n') (by decide) (by decide) hO.2.2.2.2.2 hN.2.2.2.2.2
    (fun s hs => (hss s hs).1.2.2.2.2.2)
  have hat0 := not_mem_repo (c := '@') (by decide) (by decide) hO.2.2.2.2.1 hN.2.2.2.2.1
    (fun s hs => (hss s hs).1.2.2.2.2.1)
  have hnl : '\n' ∉ render false (O :: (N ++ ".git".toList) :: ss) ++ commitText commit := by
    rw [hlhs]
    cases commit with
    | none => simpa [commitText] using hnl0
    | some C =>
      simp only [commitText, List.mem_append, List.mem_cons, not_or] at hnl0 ⊢
      exact ⟨hnl0, by decide, (hC C rfl).2⟩
  have hmatch := sshRe_match U H
    (render false (O :: (N ++ ".git".toList) :: ss) ++ commitText commit) hU.1 hU.2.1 hH.1
    hH.2.1 hnl
  have hhttp := httpRe_user_at U (H ++ ':' :: (render false (O :: (N ++ ".git".toList) :: ss)
    ++ commitText commit)) hU.2.2.2.1
  have hloc : isLocal (U ++ '@' :: (H ++ ':' :: (render false (O :: (N ++ ".git".toList) :: ss)
      ++ commitText commit))) = false := by
    obtain ⟨x, b, hxb⟩ := List.exists_cons_of_ne_nil hU.1
    rw [hxb]
    refine isLocal_cons _ _ ?_ ?_
    · intro h
      exact hU.2.2.1 (by rw [hxb]; simp [h])
    · intro h
      exact hU.2.2.2.2.2 (by rw [hxb]; simp [h])
  have hlen : (render false (O :: (N ++ ".git".toList) :: ss) ++ commitText commit).length + 1
      < fuel := by
    have h2 : 0 < U.length := List.length_pos.mpr hU.1
    have h3 : 0 < H.length := List.length_pos.mpr hH.1
    rw [etarget] at hfuel
    simp only [List.length_append, List.length_cons] at hfuel ⊢
    omega
  have hcommit : parseCommit (render false (O :: (N ++ ".git".toList) :: ss) ++ commitText commit)
      = (render false (O :: (N ++ ".git".toList) :: ss), commit.getD "HEAD".toList) := by
    cases commit with
    | none =>
      simp only [commitText, List.append_nil, Option.getD_none]
      exact parseCommit_of_not_mem (by rw [hlhs]; exact hat0)
    | some C => exact parseCommit_append _ _ (hC C rfl).1
  rw [etarget]
  unfold Parse
  rw [hloc]
  simp only [Bool.false_eq_true, if_false]
  rw [hhttp]
  simp only
  rw [hmatch]
  simp only
  rw [parseRemote_eq fuel _ hlen]
  simp only
  rw [hcommit]
  simp only
  rw [hsh1]
  simp only
  rw [hsh2, render_true_eq ss]
  simp [render, intercalate_cons_cons, intercalate_single]

theorem parse_ssh_url_witness :
    Parse testEnv 60 ("git".toList ++ "@".toList ++ "github.com".toList ++ ":".toList
        ++ "abcdefg".toList ++ "/".toList ++ "repo".toList ++ ".git".toList
        ++ subPath ["path".toList, "to".toList, "dir".toList]
        ++ commitText (some "1a2b3c5".toList))
      = some (.ok
          { Remote := "git".toList ++ "@".toList ++ "github.com".toList ++ ":".toList
              ++ "abcdefg".toList ++ "/".toList ++ "repo".toList ++ ".git".toList
            Host := "github.com".toList
            Owner := "abcdefg".toList
            Name := "repo".toList
            Commit := (some "1a2b3c5".toList).getD "HEAD".toList
            Path := if ["path".toList, "to".toList, "dir".toList] = [] then "/".toList
              else subPath ["path".toList, "to".toList, "dir".toList] }) :=
  parse_ssh_url testEnv 60 "git".toList "github.com".toList "abcdefg".toList "repo".toList
    ["path".toList, "to".toList, "dir".toList] (some "1a2b3c5".toList)
    (by decide) (by decide) (by decide) (by decide) (by decide) (by decide) (by decide)

theorem isLocal_slash (s : Str) : isLocal ('/' :: s) = true := by
  simp [isLocal, hasPrefix, pathSeparator, List.isPrefixOf]

theorem isLocalSegment_good {s : Str} (h : IsLocalSegment s) : Good s :=
  ⟨h.1, h.2.1, h.2.2.1, h.2.2.2.1⟩

/-- The elements of a cleaned absolute path that ends in `/last`. -/
theorem clean_abs_last (R parentR last : Str) (hclean : pathClean R = R)
    (habs : R.head? = some '/') (hlast : R = parentR ++ '/' :: last) (hne : last ≠ [])
    (hl : '/' ∉ last) :
    ∃ init : List Str, (∀ g ∈ init ++ [last], Good g) ∧ R = render true (init ++ [last]) := by
  obtain ⟨rs, hrs, hR⟩ := clean_abs_structure R hclean habs
  have hs1 : pathSplit R = (parentR ++ ['/'], last) := by
    rw [hlast]; exact pathSplit_append _ _ hl
  rcases List.eq_nil_or_concat rs with hnil | ⟨init, g, hc⟩
  · exfalso
    rw [hR, hnil] at hs1
    have : (pathSplit (render true [])).2 = last := by rw [hs1]
    exact hne this.symm
  · rw [List.concat_eq_append] at hc
    subst hc
    have hg := hrs g (by simp)
    have hs2 := pathSplit_render_snoc true init g hg.2.2.2
    rw [← hR, hs1] at hs2
    have : last = g := congrArg Prod.snd hs2
    subst this
    exact ⟨init, hrs, hR⟩

/-- The local branch of `Parse` on `R/s1/.../sk`, where the cleaned absolute
path `R` is a repository root by extension or by probe and the probe finds
nothing below it. -/
theorem parse_local_walk (env : Env) (fuel : Nat) (rs ss : List Str) (h : Str) (u : User)
    (hrs : ∀ g ∈ rs, Good g) (hne : rs ≠ []) (hat : '@' ∉ render true rs)
    (hss : ∀ s ∈ ss, IsLocalSubSegment s)
    (hroot : pathExt (render true rs) = ".git".toList ∨
      env.osStat (render true rs ++ "/.git".toList) = .ok ())
    (hprobe : ∀ pre, pre <+: ss → pre ≠ [] →
      env.osStat (render true rs ++ subPath pre ++ "/.git".toList) = .error .ErrNotExist)
    (hhost : env.osHostname = .ok h) (huser : env.userCurrent = .ok u)
    (hfuel : ss.length < fuel) :
    Parse env fuel (render true rs ++ subPath ss)
      = some (.ok
          { Remote := render true rs
            Host := h
            Owner := u.Name
            Name := parseName (render true rs)
            Commit := "HEAD".toList
            Path := if ss = [] then "/".toList else subPath ss }) := by
  have hssg : ∀ g ∈ ss, Good g := fun g hg => isLocalSegment_good (hss g hg).1
  have hall : ∀ g ∈ rs ++ ss, Good g := by
    intro g hg
    rcases List.mem_append.mp hg with h1 | h1
    · exact hrs g h1
    · exact hssg g h1
  have etarget : render true rs ++ subPath ss = render true (rs ++ ss) :=
    (render_append_subPath true rs ss hne).symm
  have hatT : '@' ∉ render true rs ++ subPath ss := by
    intro hm
    rcases List.mem_append.mp hm with h1 | h1
    · exact hat h1
    · exact not_mem_subPath (c := '@') (by decide) (fun s hs => (hss s hs).1.2.2.2.2) h1
  have hclean : pathClean (render true (rs ++ ss)) = render true (rs ++ ss) := by
    have hrne : render true (rs ++ ss) ≠ [] := by simp [render]
    have := pathClean_render (norm_of_good true hall)
    simpa [cleanOutL, hrne] using this
  have hwalk := findLocalGit_walk env.osStat rs ss hrs hssg
    (by
      rcases hroot with h1 | h1
      · exact Or.inl h1
      · right
        rw [pathJoin_dotgit rs hne hrs]
        exact h1)
    (fun s hs => pathExt_ne_git (hss s hs).2)
    (by
      intro pre hpre hpne
      refine ⟨.ErrNotExist, ?_⟩
      have hpg : ∀ g ∈ rs ++ pre, Good g := by
        intro g hg
        rcases List.mem_append.mp hg with h1 | h1
        · exact hrs g h1
        · exact hssg g (hpre.subset h1)
      rw [pathJoin_dotgit (rs ++ pre) (by simp [hne]) hpg, render_append_subPath true rs pre hne]
      exact hprobe pre hpre hpne)
    fuel (render true (rs ++ ss)) hfuel hclean
  have hloc : isLocal (render true rs ++ subPath ss) = true := by
    simp only [render, if_true, List.cons_append, List.nil_append]
    exact isLocal_slash _
  unfold Parse
  rw [hloc]
  simp only [if_true]
  rw [parseCommit_of_not_mem hatT]
  simp only
  rw [etarget, hwalk]
  simp only
  rw [hhost]
  simp only
  rw [huser]
  simp only
  rw [render_true_eq ss]
  rfl

theorem parseName_render_snoc (init : List Str) (g : Str) (hg : Good g) :
    parseName (render true (init ++ [g])) = trimSuffix g (pathExt g) := by
  unfold parseName
  simp only
  rw [pathBase_render_snoc true init g hg.1 hg.2.2.2]

/-- C3. On a `/`-separated platform, for every clean absolute path `R`
without `@` whose final segment is `N.git` and all segments `s1..sk`
(non-empty, not `.` or `..`, no `/` or `@`, none ending in `.git`): if the
probe reports no `.git` entry under `R/s1/.../sj` for every `1 ≤ j ≤ k`, the
hostname lookup returns `h` and the user lookup returns `u`, then
`Parse "R/s1/.../sk"` returns (given more fuel than `k`) the descriptor with
`Remote = R`, `Host = h`, `Owner = u.Name`, `Name = N`, `Path = "/s1/.../sk"`
(`"/"` when `k = 0`) and `Commit = "HEAD"`; nothing is assumed about the probe
at `R` itself. -/
theorem parse_local_git_extension (env : Env) (fuel : Nat) (R parentR N : Str)
    (ss : List Str) (h : Str) (u : User)
    (hclean : pathClean R = R) (habs : R.head? = some '/') (hat : '@' ∉ R)
    (hlast : R = parentR ++ '/' :: (N ++ ".git".toList)) (hN : '/' ∉ N)
    (hss : ∀ s ∈ ss, IsLocalSubSegment s)
    (hprobe : ∀ pre, pre <+: ss → pre ≠ [] →
      env.osStat (R ++ subPath pre ++ "/.git".toList) = .error .ErrNotExist)
    (hhost : env.osHostname = .ok h) (huser : env.userCurrent = .ok u)
    (hfuel : ss.length < fuel) :
    Parse env fuel (R ++ subPath ss)
      = some (.ok
          { Remote := R
            Host := h
            Owner := u.Name
            Name := N
            Commit := "HEAD".toList
            Path := if ss = [] then "/".toList else subPath ss }) := by
  have hgn : Good (N ++ ".git".toList) := good_append_git hN
  obtain ⟨init, hrs, hR⟩ := clean_abs_last R parentR (N ++ ".git".toList) hclean habs hlast
    hgn.1 hgn.2.2.2
  have hext : pathExt (render true (init ++ [N ++ ".git".toList])) = ".git".toList := by
    rw [pathExt_render_snoc true init _ hgn.2.2.2, pathExt_append_git]
  have hname : parseName (render true (init ++ [N ++ ".git".toList])) = N := by
    rw [parseName_render_snoc init _ hgn, pathExt_append_git, trimSuffix_append]
  have := parse_local_walk env fuel (init ++ [N ++ ".git".toList]) ss h u hrs (by simp)
    (hR ▸ hat) hss (Or.inl hext) (hR ▸ hprobe) hhost huser hfuel
  rw [hname, ← hR] at this
  exact this

theorem parse_local_git_extension_witness :
    Parse testEnv 4 ("/home/abcdefg/documents/repo.git".toList
        ++ subPath ["path".toList, "to".toList, "dir".toList])
      = some (.ok
          { Remote := "/home/abcdefg/documents/repo.git".toList
            Host := "git.example".toList
            Owner := ({ Username := "gecos".toList, Name := "gecos".toList } : User).Name
            Name := "repo".toList
            Commit := "HEAD".toList
            Path := if ["path".toList, "to".toList, "dir".toList] = [] then "/".toList
              else subPath ["path".toList, "to".toList, "dir".toList] }) :=
  parse_local_git_extension testEnv 4 "/home/abcdefg/documents/repo.git".toList
    "/home/abcdefg/documents".toList "repo".toList ["path".toList, "to".toList, "dir".toList]
    "git.example".toList { Username := "gecos".toList, Name := "gecos".toList }
    (by decide) (by decide) (by decide) (by decide) (by decide) (by decide)
    (by
      intro pre hpre hne
      have hmem : pre ∈ ["path".toList, "to".toList, "dir".toList].inits :=
        (List.mem_inits _ _).mpr hpre
      have hcases : pre = [] ∨ pre = ["path".toList] ∨ pre = ["path".toList, "to".toList] ∨
          pre = ["path".toList, "to".toList, "dir".toList] := by
        simpa [List.inits] using hmem
      rcases hcases with h0 | h1 | h2 | h3
      · exact absurd h0 hne
      · rw [h1]; rfl
      · rw [h2]; rfl
      · rw [h3]; rfl)
    rfl rfl (by decide)

/-- C4. On a `/`-separated platform, for every clean absolute path `R`
without `@`, with last segment `last`, and all segments `s1..sk` (non-empty,
not `.` or `..`, no `/` or `@`, none ending in `.git`): if the probe finds a
`.git` entry directly inside `R` and none inside `R/s1/.../sj` for every
`1 ≤ j ≤ k`, then `Parse "R/s1/.../sk"` returns (given more fuel than `k`) the
descriptor with `Remote = R`, `Name` the last segment of `R` with its
extension removed, `Path = "/s1/.../sk"` (`"/"` when `k = 0`),
`Commit = "HEAD"`, `Host` the looked-up hostname and `Owner` the looked-up
user's `Name`. -/
theorem parse_local_probe_marker (env : Env) (fuel : Nat) (R parentR last : Str)
    (ss : List Str) (h : Str) (u : User)
    (hclean : pathClean R = R) (habs : R.head? = some '/') (hat : '@' ∉ R)
    (hlast : R = parentR ++ '/' :: last) (hl : last ≠ [] ∧ '/' ∉ last)
    (hss : ∀ s ∈ ss, IsLocalSubSegment s)
    (hfound : env.osStat (R ++ "/.git".toList) = .ok ())
    (hprobe : ∀ pre, pre <+: ss → pre ≠ [] →
      env.osStat (R ++ subPath pre ++ "/.git".toList) = .error .ErrNotExist)
    (hhost : env.osHostname = .ok h) (huser : env.userCurrent = .ok u)
    (hfuel : ss.length < fuel) :
    Parse env fuel (R ++ subPath ss)
      = some (.ok
          { Remote := R
            Host := h
            Owner := u.Name
            Name := trimSuffix last (pathExt last)
            Commit := "HEAD".toList
            Path := if ss = [] then "/".toList else subPath ss }) := by
  obtain ⟨init, hrs, hR⟩ := clean_abs_last R parentR last hclean habs hlast hl.1 hl.2
  have hname : parseName (render true (init ++ [last])) = trimSuffix last (pathExt last) :=
    parseName_render_snoc init _ (hrs last (by simp))
  have := parse_local_walk env fuel (init ++ [last]) ss h u hrs (by simp)
    (hR ▸ hat) hss (Or.inr (hR ▸ hfound)) (hR ▸ hprobe) hhost huser hfuel
  rw [hname, ← hR] at this
  exact this

theorem parse_local_probe_marker_witness :
    Parse testEnv 4 ("/home/abcdefg/documents/repo".toList
        ++ subPath ["path".toList, "to".toList, "dir".toList])
      = some (.ok
          { Remote := "/home/abcdefg/documents/repo".toList
            Host := "git.example".toList
            Owner := ({ Username := "gecos".toList, Name := "gecos".toList } : User).Name
            Name := trimSuffix "repo".toList (pathExt "repo".toList)
            Commit := "HEAD".toList
            Path := if ["path".toList, "to".toList, "dir".toList] = [] then "/".toList
              else subPath ["path".toList, "to".toList, "dir".toList] }) :=
  parse_local_probe_marker testEnv 4 "/home/abcdefg/documents/repo".toList
    "/home/abcdefg/documents".toList "repo".toList ["path".toList, "to".toList, "dir".toList]
    "git.example".toList { Username := "gecos".toList, Name := "gecos".toList }
    (by decide) (by decide) (by decide) (by decide) (by decide) (by decide) rfl
    (by
      intro pre hpre hne
      have hmem : pre ∈ ["path".toList, "to".toList, "dir".toList].inits :=
        (List.mem_inits _ _).mpr hpre
      have hcases : pre = [] ∨ pre = ["path".toList] ∨ pre = ["path".toList, "to".toList] ∨
          pre = ["path".toList, "to".toList, "dir".toList] := by
        simpa [List.inits] using hmem
      rcases hcases with h0 | h1 | h2 | h3
      · exact absurd h0 hne
      · rw [h1]; rfl
      · rw [h2]; rfl
      · rw [h3]; rfl)
    rfl rfl (by decide)

/-- C5, evaluated on the code: with a probe that never finds anything the
local boundary search on `/a/b` does not return, whatever the fuel, and so
neither does `Parse`; it does not fail with `ErrInvalidTarget`. -/
theorem local_exhaustion_never_returns (fuel : Nat) :
    findLocalGit emptyEnv.osStat fuel "/a/b".toList = none ∧
      Parse emptyEnv fuel "/a/b".toList = none := by
  have hgood : ∀ g ∈ ["a".toList, "b".toList], Good g := by
    intro g hg
    simp only [List.mem_cons, List.mem_singleton, List.not_mem_nil, or_false] at hg
    rcases hg with rfl | rfl <;> exact ⟨by decide, by decide, by decide, by decide⟩
  have hdiv := findLocalGit_diverges emptyEnv.osStat (fun _ => ⟨_, rfl⟩) fuel true
    ["a".toList, "b".toList] "/a/b".toList (norm_of_good true hgood) (by decide) (by decide)
  refine ⟨hdiv, ?_⟩
  have hloc : isLocal "/a/b".toList = true := by decide
  have hc : parseCommit "/a/b".toList = ("/a/b".toList, "HEAD".toList) := by decide
  unfold Parse
  rw [hloc]
  simp only [if_true]
  rw [hc]
  simp only
  rw [hdiv]

theorem mem_splitOn_pathClean (t g : Str) (hg : g ∈ stackOf t) :
    g ∈ (pathClean t).splitOn '/' := by
  have hn := norm_stackOf t
  rw [pathClean_eq_stackOf]
  have hne : stackOf t ≠ [] := List.ne_nil_of_mem hg
  obtain ⟨init, x, hc⟩ := (List.eq_nil_or_concat (stackOf t)).resolve_left hne
  rw [List.concat_eq_append] at hc
  have hx := hn.elem x (by rw [hc]; simp)
  have e : cleanOutL (isRooted t) (stackOf t) = render (isRooted t) (stackOf t) := by
    rw [hc]; exact cleanOutL_snoc _ _ _ hx.1
  rw [e, splitOn_render _ _ hne (fun e he => (hn.elem e he).2.1)]
  exact List.mem_append_right _ hg

/-- C6. Remote boundary discovery never fails: for every string `t`
`findRemoteGit t` returns a result without error (given fuel beyond the
length of `t`), and when no path segment of the cleaned form of `t` ends in
`.git` the result is the original string `t`, unchanged, with sub-path `/`. -/
theorem findRemoteGit_never_fails (t : Str) (fuel : Nat) (hf : t.length + 1 < fuel) :
    (∃ r, findRemoteGit fuel t = some (.ok r)) ∧
      ((∀ seg ∈ (pathClean t).splitOn '/', ¬ (".git".toList <:+ seg)) →
        findRemoteGit fuel t = some (.ok (t, "/".toList))) := by
  have hres := findRemoteGit_result t fuel hf
  refine ⟨⟨_, hres⟩, ?_⟩
  intro hseg
  have hnone : splitAtGit (stackOf t).reverse = none := by
    rw [splitAtGit_eq_none]
    intro g hg he
    exact hseg g (mem_splitOn_pathClean t g (List.mem_reverse.mp hg)) (he ▸ pathExt_suffix g)
  rw [hres]
  unfold remoteResult remoteSpec
  rw [hnone]
  rfl

theorem findRemoteGit_never_fails_witness :
    (∃ r, findRemoteGit 20 "/owner//repo.v2/".toList = some (.ok r)) ∧
      findRemoteGit 20 "/owner//repo.v2/".toList
        = some (.ok ("/owner//repo.v2/".toList, "/".toList)) :=
  ⟨(findRemoteGit_never_fails "/owner//repo.v2/".toList 20 (by decide)).1,
    (findRemoteGit_never_fails "/owner//repo.v2/".toList 20 (by decide)).2 (by decide)⟩

/-! ## The claims C11..C20 -/

theorem isLocal_of_head {target : Str}
    (h : target.head? = some '/' ∨ target.head? = some '.') : isLocal target = true := by
  cases target with
  | nil => simp at h
  | cons c cs =>
    simp only [List.head?_cons, Option.some.injEq] at h
    rcases h with h | h <;> subst h <;>
      simp [isLocal, hasPrefix, pathSeparator, List.isPrefixOf]

/-- C11. The local check takes precedence over both remote patterns: for
every target that begins with the path separator or with `.` (also when it
matches `sshRe`, as `/srv/a:b/repo.git` does), whenever `Parse` succeeds the
descriptor's `Host` is the result of the hostname lookup and its `Owner` is
the looked-up user's `Name`. -/
theorem local_takes_precedence (env : Env) (fuel : Nat) (target : Str) (url : URL)
    (hhead : target.head? = some '/' ∨ target.head? = some '.')
    (hp : Parse env fuel target = some (.ok url)) :
    ∃ host owner, env.osHostname = .ok host ∧ env.userCurrent = .ok owner ∧
      url.Host = host ∧ url.Owner = owner.Name := by
  obtain ⟨remote, path, host, owner, _, hh, hu, hurl⟩ :=
    parse_local_ok (isLocal_of_head hhead) hp
  exact ⟨host, owner, hh, hu, by rw [hurl], by rw [hurl]⟩

theorem local_takes_precedence_witness :
    (sshRe "/srv/a:b/repo.git".toList
        = some ("/srv/a:".toList, "/srv/a".toList, "b/repo.git".toList) ∧
      Parse testEnv 3 "/srv/a:b/repo.git".toList
        = some (.ok { Remote := "/srv/a:b/repo.git".toList, Host := "git.example".toList,
                      Owner := "gecos".toList, Name := "repo".toList,
                      Commit := "HEAD".toList, Path := "/".toList })) ∧
      ∃ host owner, testEnv.osHostname = .ok host ∧ testEnv.userCurrent = .ok owner ∧
        "git.example".toList = host ∧ "gecos".toList = owner.Name :=
  ⟨⟨rfl, rfl⟩,
    local_takes_precedence testEnv 3 "/srv/a:b/repo.git".toList
      { Remote := "/srv/a:b/repo.git".toList, Host := "git.example".toList,
        Owner := "gecos".toList, Name := "repo".toList,
        Commit := "HEAD".toList, Path := "/".toList } (by decide) rfl⟩

/-- C16. For every local target whose boundary discovery succeeds, a failing
hostname lookup makes `Parse` return that lookup's error, and with a
successful hostname lookup a failing current-user lookup makes `Parse` return
that lookup's error; in either case the result is an error and no
descriptor. -/
theorem lookup_failure_is_returned (env : Env) (fuel : Nat) (target : Str) (r : Str × Str)
    (hloc : isLocal target = true)
    (hfound : findLocalGit env.osStat fuel (parseCommit target).1 = some (.ok r)) :
    (∀ e, env.osHostname = .error e → Parse env fuel target = some (.error e)) ∧
      (∀ h e, env.osHostname = .ok h → env.userCurrent = .error e →
        Parse env fuel target = some (.error e)) ∧
      ((∃ e, env.osHostname = .error e) ∨ (∃ e, env.userCurrent = .error e) →
        ∃ e, Parse env fuel target = some (.error e) ∧
          (env.osHostname = .error e ∨ env.userCurrent = .error e)) := by
  have h1 : ∀ e, env.osHostname = .error e → Parse env fuel target = some (.error e) := by
    intro e he
    unfold Parse
    rw [hloc]
    simp only [if_true]
    rw [hfound]
    simp only
    rw [he]
  have h2 : ∀ h e, env.osHostname = .ok h → env.userCurrent = .error e →
      Parse env fuel target = some (.error e) := by
    intro h e hh he
    unfold Parse
    rw [hloc]
    simp only [if_true]
    rw [hfound]
    simp only
    rw [hh]
    simp only
    rw [he]
  refine ⟨h1, h2, ?_⟩
  intro hfail
  cases hh : env.osHostname with
  | error e => exact ⟨e, h1 e hh, Or.inl rfl⟩
  | ok h =>
    rcases hfail with ⟨e, he⟩ | ⟨e, he⟩
    · rw [hh] at he; cases he
    · exact ⟨e, h2 h e hh he, Or.inr he⟩

theorem lookup_failure_is_returned_witness :
    (isLocal "/home/abcdefg/documents/repo.git".toList = true ∧
      findLocalGit noHostEnv.osStat 2 (parseCommit "/home/abcdefg/documents/repo.git".toList).1
        = some (.ok ("/home/abcdefg/documents/repo.git".toList, "/".toList))) ∧
      Parse noHostEnv 2 "/home/abcdefg/documents/repo.git".toList
        = some (.error (.other 1)) :=
  ⟨⟨by decide, rfl⟩,
    (lookup_failure_is_returned noHostEnv 2 "/home/abcdefg/documents/repo.git".toList
      ("/home/abcdefg/documents/repo.git".toList, "/".toList) (by decide) rfl).1 _ rfl⟩

/-- C17. The remote branch is independent of the injected I/O: for every
target that is not classified local, `Parse` returns the same result under
any two choices of the filesystem probe, the hostname lookup and the
current-user lookup. -/
theorem remote_branch_ignores_env (env₁ env₂ : Env) (fuel : Nat) (target : Str)
    (hloc : isLocal target = false) : Parse env₁ fuel target = Parse env₂ fuel target := by
  unfold Parse
  rw [hloc]
  simp only [Bool.false_eq_true, if_false]

theorem remote_branch_ignores_env_witness :
    isLocal "git@github.com:abcdefg/repo.git".toList = false ∧
      Parse testEnv 40 "git@github.com:abcdefg/repo.git".toList
        = Parse noHostEnv 40 "git@github.com:abcdefg/repo.git".toList :=
  ⟨by decide,
    remote_branch_ignores_env testEnv noHostEnv 40 "git@github.com:abcdefg/repo.git".toList
      (by decide)⟩

/-- C12, evaluated on the code: for a remainder with a trailing slash the
fallback location is the uncleaned remainder, and `parseOwnerName` takes its
last segment as `Owner` and does not strip the extension from `Name`:
`https://h/owner/repo/` gets `Owner = "repo"`, and `https://h/owner/repo.v2/`
gets `Owner = "repo.v2"` and `Name = "repo.v2"`. -/
theorem remote_trailing_slash_owner_name :
    Parse testEnv 40 "https://h/owner/repo/".toList
        = some (.ok { Remote := "https://h/owner/repo/".toList, Host := "h".toList,
                      Owner := "repo".toList, Name := "repo".toList,
                      Commit := "HEAD".toList, Path := "/".toList }) ∧
      Parse testEnv 40 "https://h/owner/repo.v2/".toList
        = some (.ok { Remote := "https://h/owner/repo.v2/".toList, Host := "h".toList,
                      Owner := "repo.v2".toList, Name := "repo.v2".toList,
                      Commit := "HEAD".toList, Path := "/".toList }) ∧
      parseName "/owner/repo.v2/".toList = "repo".toList :=
  ⟨rfl, rfl, rfl⟩

theorem pathBase_append (parent g : Str) (hne : g ≠ []) (hg : '/' ∉ g) :
    pathBase (parent ++ '/' :: g) = g := by
  have hq : parent ++ '/' :: g ≠ [] := by simp
  have hstrip : stripTrailingSlashes (parent ++ '/' :: g) = parent ++ '/' :: g := by
    obtain ⟨b, y, hby⟩ := (List.eq_nil_or_concat g).resolve_left hne
    rw [List.concat_eq_append] at hby
    have hy : y ≠ '/' := fun h => hg (by rw [hby]; simp [h])
    have e : parent ++ '/' :: g = (parent ++ '/' :: b) ++ [y] := by rw [hby]; simp
    rw [e]
    simp [stripTrailingSlashes, List.dropWhile, hy]
  unfold pathBase
  rw [if_neg hq]
  simp only [hstrip]
  rw [lastIndexByte_append hg]
  have e : parent ++ '/' :: g = (parent ++ ['/']) ++ g := by simp
  have hl : (parent ++ ['/']).length = parent.length + 1 := by simp
  simp only
  rw [e, List.drop_left' hl, if_neg hne]

/-- C20. Default destination: with no `<dir>` argument, or an empty one, the
destination is the descriptor's `Name` when `Path` is `/` and otherwise the
last segment of `Path`, in both cases joined to `.` and cleaned; with a
non-empty `<dir>` the destination is that argument joined to `.` and cleaned,
whatever the descriptor is. -/
theorem default_destination (url : URL) (repo : Str) :
    (url.Path = "/".toList →
      destinationDir url [repo] = pathClean (pathJoin [".".toList, url.Name]) ∧
        destinationDir url [repo, []] = pathClean (pathJoin [".".toList, url.Name])) ∧
      (∀ parent g : Str, url.Path = parent ++ '/' :: g → g ≠ [] → '/' ∉ g →
        destinationDir url [repo] = pathClean (pathJoin [".".toList, g]) ∧
          destinationDir url [repo, []] = pathClean (pathJoin [".".toList, g])) ∧
      (∀ (dir : Str) (rest : List Str) (url' : URL), dir ≠ [] →
        destinationDir url (repo :: dir :: rest) = pathClean (pathJoin [".".toList, dir]) ∧
          destinationDir url' (repo :: dir :: rest) = destinationDir url (repo :: dir :: rest)) := by
  refine ⟨?_, ?_, ?_⟩
  · intro hp
    simp [destinationDir, hp]
  · intro parent g hp hne hg
    have hbase : pathBase url.Path = g := by rw [hp]; exact pathBase_append parent g hne hg
    have hroot : url.Path ≠ "/".toList := by
      intro h
      rw [hp] at h
      have h2 := congrArg List.length h
      have h3 : 0 < g.length := List.length_pos.mpr hne
      simp at h2
      omega
    have hroot' : url.Path ≠ ['/'] := hroot
    simp [destinationDir, hbase, hroot']
  · intro dir rest url' hd
    simp [destinationDir, hd]

theorem default_destination_witness :
    destinationDir { Remote := "https://github.com/abcdefg/repo.git".toList,
                     Host := "github.com".toList, Owner := "abcdefg".toList,
                     Name := "repo".toList, Commit := "HEAD".toList,
                     Path := "/path/to/dir".toList }
        ["https://github.com/abcdefg/repo.git/path/to/dir".toList]
      = pathClean (pathJoin [".".toList, "dir".toList]) ∧
      pathClean (pathJoin [".".toList, "dir".toList]) = "dir".toList :=
  ⟨((default_destination
      { Remote := "https://github.com/abcdefg/repo.git".toList,
        Host := "github.com".toList, Owner := "abcdefg".toList,
        Name := "repo".toList, Commit := "HEAD".toList,
        Path := "/path/to/dir".toList }
      "https://github.com/abcdefg/repo.git/path/to/dir".toList).2.1
      "/path/to".toList "dir".toList rfl (by decide) (by decide)).1, by decide⟩

/-! ## Lemmas: results of the boundary searches, for any fuel -/

theorem findRemoteGitR_mono (fuel : Nat) :
    ∀ (x : Str) (r : Except GoError (Str × Str)), findRemoteGitR fuel x = some r →
      findRemoteGitR (fuel + 1) x = some r := by
  induction fuel with
  | zero => intro x r h; simp [findRemoteGitR] at h
  | succ f ih =>
    intro x r h
    rw [findRemoteGitR] at h ⊢
    split
    · rename_i hc
      rw [if_pos hc] at h
      exact h
    · rename_i hc
      rw [if_neg hc] at h
      split
      · rename_i he
        rw [if_pos he] at h
        exact h
      · rename_i he
        rw [if_neg he] at h
        cases hrec : findRemoteGitR f (pathSplit (pathClean x)).1 with
        | none => rw [hrec] at h; cases h
        | some v =>
          rw [hrec] at h
          rw [ih _ v hrec]
          exact h

theorem findRemoteGitR_mono_add (fuel k : Nat) (x : Str) (r : Except GoError (Str × Str))
    (h : findRemoteGitR fuel x = some r) : findRemoteGitR (fuel + k) x = some r := by
  induction k with
  | zero => exact h
  | succ k ih => exact findRemoteGitR_mono (fuel + k) x r ih

/-- Whatever the fuel, a result of the remote boundary search is the one
given by the elements of the cleaned input. -/
theorem findRemoteGitR_some {fuel : Nat} {t : Str} {r : Except GoError (Str × Str)}
    (h : findRemoteGitR fuel t = some r) : r = remoteSpec (isRooted t) (stackOf t) := by
  have h1 := findRemoteGitR_mono_add fuel (t.length + 2) t r h
  have h2 := findRemoteGitR_eq t (fuel + (t.length + 2)) (by omega)
  rw [h1] at h2
  exact Option.some.inj h2

/-- A boundary found by the remote search: the cleaned input is
`pre/x/d1/.../dk`, the element `x` has the extension `.git` and no `di` has. -/
theorem remoteSpec_ok {rooted : Bool} {st : List Str} {remote dir : Str} (hn : Norm rooted st)
    (h : remoteSpec rooted st = .ok (remote, dir)) :
    ∃ (pre : List Str) (x : Str) (d : List Str), st = pre ++ x :: d ∧
      pathExt x = ".git".toList ∧ (∀ g ∈ x :: d, Good g) ∧
      (∀ g ∈ d, pathExt g ≠ ".git".toList) ∧
      remote = render rooted (pre ++ [x]) ∧ dir = render true d := by
  unfold remoteSpec at h
  cases hs : splitAtGit st.reverse with
  | none => rw [hs] at h; cases h
  | some v =>
    obtain ⟨r, d⟩ := v
    rw [hs] at h
    simp only [Except.ok.injEq, Prod.mk.injEq] at h
    obtain ⟨h1, ⟨x, r', hr, hxe⟩, h3⟩ := splitAtGit_eq_some hs
    have hst : st = r'.reverse ++ x :: d := by
      have := congrArg List.reverse h1
      simpa [hr] using this
    have hxne : x ≠ ['.', '.'] := by
      intro hxx
      rw [hxx, pathExt_dotdot] at hxe
      revert hxe
      decide
    refine ⟨r'.reverse, x, d, hst, hxe, (hst ▸ hn).good_after hxne, h3, ?_, h.2.symm⟩
    rw [← h.1, hr]
    simp

/-- The cleaned parent of a cleaned path with elements `init ++ [g]` has the
elements `init`. -/
theorem pathClean_parent {rooted : Bool} {init : List Str} {g : Str}
    (h : Norm rooted (init ++ [g])) :
    pathClean (pathSplit (render rooted (init ++ [g]))).1 = cleanOutL rooted init := by
  rw [pathSplit_render_snoc rooted init g (h.elem g (by simp)).2.1]
  by_cases hi : init = []
  · subst hi
    rw [if_pos rfl]
    show pathClean (render rooted []) = cleanOutL rooted []
    cases rooted <;> decide
  · rw [if_neg hi]
    exact pathClean_render_slash h.init hi

/-- A cleaned path spelled from its elements is not empty, and other than `.`
and `/` it has a last element. -/
theorem cleanOutL_cases (rooted : Bool) (st : List Str) (hn : Norm rooted st)
    (h1 : cleanOutL rooted st ≠ ['.']) (h2 : cleanOutL rooted st ≠ ['/']) :
    ∃ init g, st = init ++ [g] ∧ cleanOutL rooted st = render rooted (init ++ [g]) := by
  rcases List.eq_nil_or_concat st with hnil | ⟨init, g, hc⟩
  · exfalso
    subst hnil
    rw [cleanOutL_nil] at h1 h2
    cases rooted
    · exact h1 rfl
    · exact h2 rfl
  · rw [List.concat_eq_append] at hc
    subst hc
    exact ⟨init, g, rfl, cleanOutL_snoc _ _ _ (hn.elem g (by simp)).1⟩

/-- The cleaned form of a path that starts with a slash is a slash followed
by copied elements. -/
theorem pathClean_rooted (x : Str) (hx : x.head? = some '/') :
    ∃ segs : List Str, (∀ g ∈ segs, Good g) ∧ pathClean x = render true segs := by
  have hr : isRooted x = true := by simp [isRooted, hx]
  obtain ⟨m, goods, hst, hm, hg⟩ := norm_stackOf x
  rw [hr] at hm
  have hm0 := hm rfl
  subst hm0
  refine ⟨goods, hg, ?_⟩
  rw [pathClean_eq_stackOf, hr, hst]
  simp [cleanOutL, dots, render]

theorem pathClean_render_true (segs : List Str) (hg : ∀ g ∈ segs, Good g) :
    pathClean (render true segs) = render true segs := by
  have := pathClean_render (norm_of_good true hg)
  have hne : render true segs ≠ [] := by simp [render]
  simpa [cleanOutL, hne] using this

/-- `path.Join(dir, sub)` of a rooted `dir` is a slash followed by copied
elements. -/
theorem pathJoin_rooted (dir sub : Str) (hd : dir.head? = some '/') :
    ∃ segs : List Str, (∀ g ∈ segs, Good g) ∧ pathJoin [dir, sub] = render true segs := by
  have hne : dir ≠ [] := by
    intro h
    rw [h] at hd
    cases hd
  have e : pathJoin [dir, sub] = pathClean (dir ++ '/' :: sub) := by
    simp [pathJoin, hne, intercalate_cons_cons, intercalate_single]
  rw [e]
  apply pathClean_rooted
  cases dir with
  | nil => exact absurd rfl hne
  | cons c cs => simpa using hd

theorem render_true_head (segs : List Str) : (render true segs).head? = some '/' := by
  simp [render]

theorem findRemoteGitR_dir (fuel : Nat) :
    ∀ (x remote dir : Str), findRemoteGitR fuel x = some (.ok (remote, dir)) →
      ∃ segs : List Str, (∀ g ∈ segs, Good g) ∧ dir = render true segs := by
  induction fuel with
  | zero => intro x remote dir h; simp [findRemoteGitR] at h
  | succ f ih =>
    intro x remote dir h
    rw [findRemoteGitR] at h
    split at h
    · cases h
    · split at h
      · simp only [Option.some.injEq, Except.ok.injEq, Prod.mk.injEq] at h
        exact ⟨[], by simp, by rw [← h.2, render_nil]; rfl⟩
      · cases hrec : findRemoteGitR f (pathSplit (pathClean x)).1 with
        | none => rw [hrec] at h; cases h
        | some v =>
          rw [hrec] at h
          cases v with
          | error e => simp at h
          | ok p =>
            obtain ⟨remote', dir'⟩ := p
            simp only [Option.some.injEq, Except.ok.injEq, Prod.mk.injEq] at h
            obtain ⟨segs', _, hd'⟩ := ih _ _ _ hrec
            rw [← h.2]
            exact pathJoin_rooted dir' _ (by rw [hd']; exact render_true_head _)

theorem findLocalGit_dir (osStat : Str → Except GoError Unit) (fuel : Nat) :
    ∀ (x remote dir : Str), findLocalGit osStat fuel x = some (.ok (remote, dir)) →
      ∃ segs : List Str, (∀ g ∈ segs, Good g) ∧ dir = render true segs := by
  induction fuel with
  | zero => intro x remote dir h; simp [findLocalGit] at h
  | succ f ih =>
    intro x remote dir h
    rw [findLocalGit] at h
    split at h
    · cases h
    · split at h
      · simp only [Option.some.injEq, Except.ok.injEq, Prod.mk.injEq] at h
        exact ⟨[], by simp, by rw [← h.2, render_nil]; rfl⟩
      · split at h
        · simp only [Option.some.injEq, Except.ok.injEq, Prod.mk.injEq] at h
          exact ⟨[], by simp, by rw [← h.2, render_nil]; rfl⟩
        · cases hrec : findLocalGit osStat f (pathSplit (pathClean x)).1 with
          | none => rw [hrec] at h; cases h
          | some v =>
            rw [hrec] at h
            cases v with
            | error e => simp at h
            | ok p =>
              obtain ⟨remote', dir'⟩ := p
              simp only [Option.some.injEq, Except.ok.injEq, Prod.mk.injEq] at h
              obtain ⟨segs', _, hd'⟩ := ih _ _ _ hrec
              rw [← h.2]
              exact pathJoin_rooted dir' _ (by rw [hd']; exact render_true_head _)

theorem findRemoteGit_dir {fuel : Nat} {x remote dir : Str}
    (h : findRemoteGit fuel x = some (.ok (remote, dir))) :
    ∃ segs : List Str, (∀ g ∈ segs, Good g) ∧ dir = render true segs := by
  unfold findRemoteGit at h
  cases hr : findRemoteGitR fuel x with
  | none => rw [hr] at h; cases h
  | some v =>
    rw [hr] at h
    cases v with
    | error e =>
      simp only at h
      split at h
      · simp only [Option.some.injEq, Except.ok.injEq, Prod.mk.injEq] at h
        exact ⟨[], by simp, by rw [← h.2, render_nil]; rfl⟩
      · cases h
    | ok p =>
      obtain ⟨remote', dir'⟩ := p
      simp only [Option.some.injEq, Except.ok.injEq, Prod.mk.injEq] at h
      rw [← h.2]
      exact findRemoteGitR_dir fuel x remote' dir' hr

/-- What a successful remote parse is made of. -/
theorem parseRemote_ok {fuel : Nat} {m : Str × Str × Str} {url : URL}
    (hp : parseRemote fuel m = some (.ok url)) :
    ∃ remote path, findRemoteGit fuel (parseCommit m.2.2).1 = some (.ok (remote, path)) ∧
      url = { Remote := m.1 ++ remote, Host := m.2.1, Owner := (parseOwnerName remote).1,
              Name := (parseOwnerName remote).2, Commit := (parseCommit m.2.2).2,
              Path := path } := by
  unfold parseRemote at hp
  simp only at hp
  cases hf : findRemoteGit fuel (parseCommit m.2.2).1 with
  | none => rw [hf] at hp; cases hp
  | some r =>
    rw [hf] at hp
    cases r with
    | error e => simp at hp
    | ok v =>
      obtain ⟨remote, path⟩ := v
      simp only [Option.some.injEq, Except.ok.injEq] at hp
      exact ⟨remote, path, rfl, hp.symm⟩

theorem render_true_getLast (segs : List Str) (hg : ∀ g ∈ segs, Good g)
    (hne : render true segs ≠ ['/']) : (render true segs).getLast? ≠ some '/' := by
  rcases List.eq_nil_or_concat segs with hnil | ⟨init, g, hc⟩
  · subst hnil
    exact absurd (by rw [render_nil]; rfl) hne
  · rw [List.concat_eq_append] at hc
    subst hc
    have hgg := hg g (by simp)
    obtain ⟨b, y, hby⟩ := (List.eq_nil_or_concat g).resolve_left hgg.1
    rw [List.concat_eq_append] at hby
    have hy : y ≠ '/' := fun h => hgg.2.2.2 (by rw [hby]; simp [h])
    have : ∃ a, render true (init ++ [g]) = a ++ [y] := by
      by_cases hi : init = []
      · exact ⟨['/'] ++ b, by rw [hi, List.nil_append, render_single, hby]; simp⟩
      · exact ⟨render true init ++ '/' :: b, by rw [render_concat _ _ _ hi, hby]; simp⟩
    obtain ⟨a, ha⟩ := this
    rw [ha, List.getLast?_append]
    simp [hy]

/-- C13. For every target on which `Parse` succeeds (local or remote) the
descriptor's `Path` is not empty, begins with `/`, equals its own cleaned
form, has no trailing slash unless it is exactly `/`, and is `/` followed by
slash-separated segments none of which is empty, `.` or `..`. -/
theorem path_is_normalized (env : Env) (fuel : Nat) (target : Str) (url : URL)
    (hp : Parse env fuel target = some (.ok url)) :
    url.Path ≠ [] ∧ url.Path.head? = some '/' ∧ pathClean url.Path = url.Path ∧
      (url.Path ≠ "/".toList → url.Path.getLast? ≠ some '/') ∧
      ∃ segs : List Str,
        (∀ g ∈ segs, g ≠ [] ∧ g ≠ ".".toList ∧ g ≠ "..".toList ∧ '/' ∉ g) ∧
        url.Path = '/' :: ['/'].intercalate segs := by
  have key : ∃ segs : List Str, (∀ g ∈ segs, Good g) ∧ url.Path = render true segs := by
    cases hloc : isLocal target with
    | true =>
      obtain ⟨remote, path, _, _, hfind, _, _, hurl⟩ := parse_local_ok hloc hp
      rw [hurl]
      exact findLocalGit_dir env.osStat fuel _ remote path hfind
    | false =>
      rcases parse_remote_cases env fuel target hloc with ⟨m, _, hpm⟩ | ⟨_, _, herr⟩
      · rw [hpm] at hp
        obtain ⟨remote, path, hfind, hurl⟩ := parseRemote_ok hp
        rw [hurl]
        exact findRemoteGit_dir hfind
      · rw [herr] at hp
        simp at hp
  obtain ⟨segs, hg, hpath⟩ := key
  rw [hpath]
  refine ⟨by simp [render], render_true_head _, pathClean_render_true segs hg,
    render_true_getLast segs hg, segs, hg, ?_⟩
  simp [render]

theorem path_is_normalized_witness :
    Parse testEnv 50 "https://github.com/abcdefg/repo.git/path//to/./dir/@1a2b3c5".toList
        = some (.ok { Remote := "https://github.com/abcdefg/repo.git".toList,
                      Host := "github.com".toList, Owner := "abcdefg".toList,
                      Name := "repo".toList, Commit := "1a2b3c5".toList,
                      Path := "/path/to/dir".toList }) ∧
      ("/path/to/dir".toList ≠ [] ∧ "/path/to/dir".toList.head? = some '/' ∧
        pathClean "/path/to/dir".toList = "/path/to/dir".toList ∧
        ("/path/to/dir".toList ≠ "/".toList → "/path/to/dir".toList.getLast? ≠ some '/') ∧
        ∃ segs : List Str,
          (∀ g ∈ segs, g ≠ [] ∧ g ≠ ".".toList ∧ g ≠ "..".toList ∧ '/' ∉ g) ∧
          "/path/to/dir".toList = '/' :: ['/'].intercalate segs) :=
  ⟨rfl,
    path_is_normalized testEnv 50
      "https://github.com/abcdefg/repo.git/path//to/./dir/@1a2b3c5".toList
      { Remote := "https://github.com/abcdefg/repo.git".toList,
        Host := "github.com".toList, Owner := "abcdefg".toList,
        Name := "repo".toList, Commit := "1a2b3c5".toList,
        Path := "/path/to/dir".toList } rfl⟩

/-- The shape of a successful remote boundary search, for any fuel. -/
theorem findRemoteGitR_ok {fuel : Nat} {t remote dir : Str}
    (h : findRemoteGitR fuel t = some (.ok (remote, dir))) :
    ∃ (pre : List Str) (x : Str) (d : List Str), stackOf t = pre ++ x :: d ∧
      pathExt x = ".git".toList ∧ (∀ g ∈ x :: d, Good g) ∧
      (∀ g ∈ d, pathExt g ≠ ".git".toList) ∧
      remote = render (isRooted t) (pre ++ [x]) ∧ dir = render true d :=
  remoteSpec_ok (norm_stackOf t) (findRemoteGitR_some h).symm

/-- C18. Remote boundary discovery picks the longest prefix that ends in a
`.git` segment: whenever `findRemoteGitR t` succeeds with `(remote, dir)`, the
final segment of `remote` has the extension `.git` and no segment of `dir`
has; `a.git/b.git/c` yields `a.git/b.git` and `/c`. -/
theorem remote_boundary_is_last_git (fuel : Nat) (t remote dir : Str)
    (h : findRemoteGitR fuel t = some (.ok (remote, dir))) :
    pathExt remote = ".git".toList ∧
      (∀ seg ∈ dir.splitOn '/', pathExt seg ≠ ".git".toList) ∧
      findRemoteGitR 4 "a.git/b.git/c".toList
        = some (.ok ("a.git/b.git".toList, "/c".toList)) := by
  obtain ⟨pre, x, d, _, hxe, hgood, hde, hremote, hdir⟩ := findRemoteGitR_ok h
  refine ⟨?_, ?_, rfl⟩
  · rw [hremote, pathExt_render_snoc _ pre x (hgood x (by simp)).2.2.2]
    exact hxe
  · intro seg hseg
    rw [hdir] at hseg
    by_cases hd : d = []
    · subst hd
      have : render true [] = "/".toList := by rw [render_nil]; rfl
      rw [this] at hseg
      have : seg = [] := by
        have h2 : "/".toList.splitOn '/' = [[], []] := by decide
        rw [h2] at hseg
        simpa using hseg
      rw [this]
      decide
    · rw [splitOn_render true d hd (fun e he => (hgood e (by simp [he])).2.2.2)] at hseg
      simp only [if_true, List.cons_append, List.nil_append, List.mem_cons] at hseg
      rcases hseg with h0 | h1
      · rw [h0]; decide
      · exact hde seg h1

theorem remote_boundary_is_last_git_witness :
    findRemoteGitR 4 "a.git/b.git/c".toList
        = some (.ok ("a.git/b.git".toList, "/c".toList)) ∧
      (pathExt "a.git/b.git".toList = ".git".toList ∧
        (∀ seg ∈ "/c".toList.splitOn '/', pathExt seg ≠ ".git".toList) ∧
        findRemoteGitR 4 "a.git/b.git/c".toList
          = some (.ok ("a.git/b.git".toList, "/c".toList))) :=
  ⟨rfl, remote_boundary_is_last_git 4 "a.git/b.git/c".toList "a.git/b.git".toList
    "/c".toList rfl⟩

/-- `path.Clean` of a spelled-out path, by its elements. -/
theorem pathClean_render_fold (rooted : Bool) (L : List Str) (hL : L ≠ [])
    (hns : ∀ e ∈ L, '/' ∉ e) (hhead : rooted = false → ∀ e ∈ L.head?, e ≠ [] ∧ '/' ∉ e) :
    pathClean (render rooted L) = cleanOut rooted (L.foldl (stackElem rooted) (0, [])) := by
  rw [pathClean_eq, isRooted_render rooted L hhead, cleanStack_render rooted L hL hns hhead]

theorem foldl_stackOf (t : Str) :
    (stackOf t).foldl (stackElem (isRooted t)) (0, []) = cleanStack t :=
  foldl_stackElem_normal (isRooted t) (cleanStack t).1 (cleanStack t).2
    (cleanStack_inv t).1 (cleanStack_inv t).2

theorem cleanOutL_of_ne_nil {rooted : Bool} {st : List Str} (hn : Norm rooted st)
    (hne : st ≠ []) : cleanOutL rooted st = render rooted st := by
  obtain ⟨init, g, hc⟩ := (List.eq_nil_or_concat st).resolve_left hne
  rw [List.concat_eq_append] at hc
  subst hc
  exact cleanOutL_snoc _ _ _ (hn.elem g (by simp)).1

/-- C14. Repository location and sub-path partition the cleaned input: for
every string `t` on which `findRemoteGitR` succeeds with `(remote, dir)`,
`path.Join(remote, dir) = path.Clean(t)`, and `remote` followed by `dir`
(`dir` left out when it is `/`) is `path.Clean(t)` letter for letter. -/
theorem remote_and_dir_partition (fuel : Nat) (t remote dir : Str)
    (h : findRemoteGitR fuel t = some (.ok (remote, dir))) :
    pathJoin [remote, dir] = pathClean t ∧
      remote ++ (if dir = "/".toList then [] else dir) = pathClean t := by
  obtain ⟨pre, x, d, hst, hxe, hgood, hde, hremote, hdir⟩ := findRemoteGitR_ok h
  have hn := norm_stackOf t
  have helem : ∀ e ∈ pre ++ x :: d, e ≠ [] ∧ '/' ∉ e := by
    intro e he
    have := hn.elem e (hst ▸ he)
    exact ⟨this.1, this.2.1⟩
  have hrne : remote ≠ [] := by
    rw [hremote]
    exact render_snoc_ne_nil _ _ _ (hgood x (by simp)).1
  have hclean : pathClean t = render (isRooted t) (pre ++ [x]) ++ subPath d := by
    rw [pathClean_eq_stackOf, cleanOutL_of_ne_nil hn (by rw [hst]; simp), hst,
      ← render_append_subPath (isRooted t) (pre ++ [x]) d (by simp)]
    simp
  constructor
  · have e1 : pathJoin [remote, dir] = pathClean (remote ++ '/' :: dir) := by
      simp [pathJoin, hrne, intercalate_cons_cons, intercalate_single]
    -- the joined text is the path with elements `pre ++ [x] ++ [] :: e`
    have key : ∀ e : List Str, (∀ g ∈ e, '/' ∉ g) →
        e.foldl (stackElem (isRooted t)) ((pre ++ [x]).foldl (stackElem (isRooted t)) (0, []))
          = cleanStack t →
        pathClean (render (isRooted t) ((pre ++ [x]) ++ [] :: e)) = pathClean t := by
      intro e hens hfold
      have hhead : isRooted t = false →
          ∀ g ∈ ((pre ++ [x]) ++ [] :: e).head?, g ≠ [] ∧ '/' ∉ g := by
        intro _ g hg
        have hmem : g ∈ pre ++ [x] := by
          cases pre with
          | nil => simpa using hg.symm
          | cons a pre' =>
            have : g = a := by simpa using hg.symm
            simp [this]
        exact helem g (by
          rcases List.mem_append.mp hmem with h1 | h1
          · exact List.mem_append_left _ h1
          · have : g = x := by simpa using h1
            simp [this])
      rw [pathClean_render_fold _ _ (by simp) (by
          intro g hg
          rcases List.mem_append.mp hg with h1 | h1
          · rcases List.mem_append.mp h1 with h2 | h2
            · exact (helem g (List.mem_append_left _ h2)).2
            · have : g = x := by simpa using h2
              exact (helem g (by simp [this])).2
          · rcases List.mem_cons.mp h1 with h2 | h2
            · simp [h2]
            · exact hens g h2) hhead,
        List.foldl_append, List.foldl_cons, stackElem_skip _ _ _ (Or.inl rfl), hfold,
        pathClean_eq]
    rw [e1, hremote, hdir]
    by_cases hd : d = []
    · subst hd
      have e2 : render (isRooted t) (pre ++ [x]) ++ '/' :: render true []
          = render (isRooted t) ((pre ++ [x]) ++ [] :: [[]]) := by
        rw [render_append_subPath (isRooted t) (pre ++ [x]) ([] :: [[]]) (by simp), render_nil]
        simp [subPath]
      rw [e2]
      apply key [[]] (by simp)
      rw [List.foldl_cons, stackElem_skip _ _ _ (Or.inl rfl), List.foldl_nil]
      have := foldl_stackOf t
      rw [hst] at this
      simpa using this
    · have e2 : render (isRooted t) (pre ++ [x]) ++ '/' :: render true d
          = render (isRooted t) ((pre ++ [x]) ++ [] :: d) := by
        rw [render_append_subPath (isRooted t) (pre ++ [x]) ([] :: d) (by simp),
          render_true_subPath d hd]
        simp [subPath]
      rw [e2]
      apply key d (fun g hg => (helem g (by simp [hg])).2)
      rw [← List.foldl_append]
      have := foldl_stackOf t
      rw [hst] at this
      simpa using this
  · rw [hclean, hremote, hdir]
    by_cases hd : d = []
    · subst hd
      have : render true [] = "/".toList := by rw [render_nil]; rfl
      rw [this, if_pos rfl]
      simp [subPath]
    · rw [render_true_subPath d hd]
      obtain ⟨g, d', rfl⟩ := List.exists_cons_of_ne_nil hd
      have hgne : g ≠ [] := (hgood g (by simp)).1
      have hne : subPath (g :: d') ≠ "/".toList := by
        intro he
        have e : subPath (g :: d') = '/' :: (g ++ subPath d') := by simp [subPath]
        rw [e] at he
        have h2 := congrArg List.length he
        have h3 : 0 < g.length := List.length_pos.mpr hgne
        have h4 : ("/".toList).length = 1 := rfl
        simp only [List.length_cons, List.length_append, h4] at h2
        omega
      rw [if_neg hne]

theorem remote_and_dir_partition_witness :
    findRemoteGitR 6 "x//a.git/./b/../c/".toList
        = some (.ok ("x/a.git".toList, "/c".toList)) ∧
      (pathJoin ["x/a.git".toList, "/c".toList] = pathClean "x//a.git/./b/../c/".toList ∧
        "x/a.git".toList ++ (if "/c".toList = "/".toList then [] else "/c".toList)
          = pathClean "x//a.git/./b/../c/".toList) :=
  ⟨rfl, remote_and_dir_partition 6 "x//a.git/./b/../c/".toList "x/a.git".toList
    "/c".toList rfl⟩

/-- C19, as the claim states it, fails: the cleaned path `a` is not a base
case, so `findRemoteGitR` calls itself on its parent, whose cleaned form `.`
is exactly as long. -/
theorem remote_parent_not_shorter_counterexample :
    pathClean "a".toList = "a".toList ∧
      findRemoteGitR 1 "a".toList = none ∧
      findRemoteGitR 2 "a".toList = some (.error .ErrInvalidTarget) ∧
      pathClean (pathSplit (pathClean "a".toList)).1 = ".".toList ∧
      ¬ ((pathClean (pathSplit (pathClean "a".toList)).1).length
          < (pathClean "a".toList).length) :=
  ⟨by decide, rfl, rfl, by decide, by decide⟩

/-- C19, amended. The remote shortening recursion terminates on every
input: `findRemoteGitR t` returns for any fuel beyond the length of `t` plus
one; and wherever it calls itself, the cleaned parent is strictly shorter
than the cleaned path it came from, except when that cleaned path is a single
character (such as `a`), whose cleaned parent is `.`, of the same length,
where the recursion stops. -/
theorem remote_recursion_terminates (t : Str) :
    (∀ fuel, t.length + 1 < fuel → ∃ r, findRemoteGitR fuel t = some r) ∧
      (pathClean t ≠ ".".toList → pathClean t ≠ "/".toList →
        (pathClean (pathSplit (pathClean t)).1).length < (pathClean t).length ∨
          ((pathClean t).length = 1 ∧
            pathClean (pathSplit (pathClean t)).1 = ".".toList)) := by
  refine ⟨fun fuel hf => ⟨_, findRemoteGitR_eq t fuel hf⟩, ?_⟩
  intro h1 h2
  have hn := norm_stackOf t
  rw [pathClean_eq_stackOf] at h1 h2
  obtain ⟨init, g, hst, hq⟩ := cleanOutL_cases _ _ hn h1 h2
  rw [hst] at hn
  have hg := hn.elem g (by simp)
  have hqt : pathClean t = render (isRooted t) (init ++ [g]) := by
    rw [pathClean_eq_stackOf]
    exact hq
  rw [hqt, pathClean_parent hn]
  by_cases hi : init = []
  · subst hi
    rw [cleanOutL_nil, List.nil_append, render_single]
    cases hr : isRooted t with
    | true =>
      left
      have : 0 < g.length := List.length_pos.mpr hg.1
      simp
      omega
    | false =>
      simp only [Bool.false_eq_true, if_false, List.nil_append]
      by_cases hl : g.length = 1
      · right
        exact ⟨hl, rfl⟩
      · left
        have : 0 < g.length := List.length_pos.mpr hg.1
        simp
        omega
  · left
    rw [cleanOutL_of_ne_nil hn.init hi, render_concat _ _ _ hi]
    simp

theorem remote_recursion_terminates_witness :
    (∃ r, findRemoteGitR 8 "../x/y".toList = some r) ∧
      ((pathClean (pathSplit (pathClean "../x/y".toList)).1).length
          < (pathClean "../x/y".toList).length ∨
        ((pathClean "../x/y".toList).length = 1 ∧
          pathClean (pathSplit (pathClean "../x/y".toList)).1 = ".".toList)) :=
  ⟨(remote_recursion_terminates "../x/y".toList).1 8 (by decide),
    (remote_recursion_terminates "../x/y".toList).2 (by decide) (by decide)⟩

/-- The local boundary search only asks whether the probe succeeded. -/
theorem findLocalGit_notFoundProbe (osStat : Str → Except GoError Unit) (fuel : Nat) :
    ∀ x : Str, findLocalGit (notFoundProbe osStat) fuel x = findLocalGit osStat fuel x := by
  induction fuel with
  | zero => intro x; rfl
  | succ f ih =>
    intro x
    rw [findLocalGit, findLocalGit, ih]
    split
    · rfl
    · split
      · rfl
      · unfold notFoundProbe
        cases osStat (pathJoin [pathClean x, ".git".toList]) <;> rfl

/-- C15, as the claim states it, fails: the probe of `/srv/repo/sub/.git` is
denied, yet `Parse "/srv/repo/sub"` goes on to the parent directory and
succeeds there. -/
theorem probe_failure_counterexample :
    deniedEnv.osStat "/srv/repo/sub/.git".toList = .error .ErrPermission ∧
      Parse deniedEnv 3 "/srv/repo/sub".toList
        = some (.ok { Remote := "/srv/repo".toList, Host := "git.example".toList,
                      Owner := "gecos".toList, Name := "repo".toList,
                      Commit := "HEAD".toList, Path := "/sub".toList }) :=
  ⟨rfl, rfl⟩

/-- C15, amended. If, during local boundary discovery, the probe for a `.git`
entry fails with any error, not-found or another I/O error such as permission
denied, the path is treated as unmarked and the search continues in the
parent directory: the local boundary search and `Parse` return what they
return when every probe failure is not-found. -/
theorem probe_failure_continues_search (env : Env) (fuel : Nat) (target : Str) :
    findLocalGit (notFoundProbe env.osStat) fuel target = findLocalGit env.osStat fuel target ∧
      Parse (withNotFoundProbe env) fuel target = Parse env fuel target := by
  refine ⟨findLocalGit_notFoundProbe env.osStat fuel target, ?_⟩
  unfold Parse
  simp only [withNotFoundProbe, findLocalGit_notFoundProbe]

theorem probe_failure_continues_search_witness :
    (withNotFoundProbe deniedEnv).osStat "/srv/repo/sub/.git".toList = .error .ErrNotExist ∧
      deniedEnv.osStat "/srv/repo/sub/.git".toList = .error .ErrPermission ∧
      Parse (withNotFoundProbe deniedEnv) 3 "/srv/repo/sub".toList
        = some (.ok { Remote := "/srv/repo".toList, Host := "git.example".toList,
                      Owner := "gecos".toList, Name := "repo".toList,
                      Commit := "HEAD".toList, Path := "/sub".toList }) ∧
      Parse (withNotFoundProbe deniedEnv) 3 "/srv/repo/sub".toList
        = Parse deniedEnv 3 "/srv/repo/sub".toList :=
  ⟨rfl, rfl, rfl, (probe_failure_continues_search deniedEnv 3 "/srv/repo/sub".toList).2⟩

end GitGet
